import Mathlib

/- Shallow embedding of
   packages/graphql-language-service/src/utils/getVariablesJSONSchema.ts.

   JavaScript objects are modelled as records of optional fields (a `none`
   field corresponds to an absent key).  The mutable `definition` object the
   source builds up is modelled by successive functional updates.  The
   run-scoped `Marker` set is threaded through the recursion as an explicit
   `List String` state.  Since the GraphQL type graph may be cyclic through
   input-object types, the recursion is expressed with an explicit fuel
   parameter; a later theorem shows the computed `initialFuel` always
   suffices, which is the termination guarantee the spec attributes to the
   visitation marker. -/

/-- JSON values (used only for `default` values, which the source copies
through without inspecting them). -/
inductive JSONVal where
  | null
  | bool (b : Bool)
  | num (n : Int)
  | str (s : String)
  | arr (elems : List JSONVal)
  | obj (members : List (String × JSONVal))

/-- The `type` member of a JSON schema fragment: a single type tag or an
array of type tags (the source checks `Array.isArray(definition.type)`). -/
inductive SchemaTypeTag where
  | single (tag : String)
  | multi (tags : List String)

/-- A JSON Schema fragment, restricted to the members the source reads or
writes.  `enum` holds `Option String` entries because the source pushes a
literal `null` into the enum list for nullable enum occurrences. -/
inductive JSONSchema where
  | mk (type : Option SchemaTypeTag)
       (enum : Option (List (Option String)))
       (default : Option JSONVal)
       (items : Option JSONSchema)
       (ref : Option String)
       (oneOf : Option (List JSONSchema))
       (properties : Option (List (String × JSONSchema)))
       (required : Option (List String))
       (description : Option String)
       (markdownDescription : Option String)

def JSONSchema.type : JSONSchema → Option SchemaTypeTag
  | .mk t _ _ _ _ _ _ _ _ _ => t

def JSONSchema.enum : JSONSchema → Option (List (Option String))
  | .mk _ e _ _ _ _ _ _ _ _ => e

def JSONSchema.default : JSONSchema → Option JSONVal
  | .mk _ _ d _ _ _ _ _ _ _ => d

def JSONSchema.items : JSONSchema → Option JSONSchema
  | .mk _ _ _ i _ _ _ _ _ _ => i

def JSONSchema.ref : JSONSchema → Option String
  | .mk _ _ _ _ r _ _ _ _ _ => r

def JSONSchema.oneOf : JSONSchema → Option (List JSONSchema)
  | .mk _ _ _ _ _ o _ _ _ _ => o

def JSONSchema.properties : JSONSchema → Option (List (String × JSONSchema))
  | .mk _ _ _ _ _ _ p _ _ _ => p

def JSONSchema.required : JSONSchema → Option (List String)
  | .mk _ _ _ _ _ _ _ r _ _ => r

def JSONSchema.description : JSONSchema → Option String
  | .mk _ _ _ _ _ _ _ _ d _ => d

def JSONSchema.markdownDescription : JSONSchema → Option String
  | .mk _ _ _ _ _ _ _ _ _ m => m

/-- The empty object literal `{}` (`Object.create(null)` in the source). -/
def JSONSchema.empty : JSONSchema :=
  .mk none none none none none none none none none none

def JSONSchema.withType : JSONSchema → Option SchemaTypeTag → JSONSchema
  | .mk _ e d i r o p q ds md, t => .mk t e d i r o p q ds md

def JSONSchema.withEnum : JSONSchema → Option (List (Option String)) → JSONSchema
  | .mk t _ d i r o p q ds md, e => .mk t e d i r o p q ds md

def JSONSchema.withDefault : JSONSchema → Option JSONVal → JSONSchema
  | .mk t e _ i r o p q ds md, d => .mk t e d i r o p q ds md

def JSONSchema.withItems : JSONSchema → Option JSONSchema → JSONSchema
  | .mk t e d _ r o p q ds md, i => .mk t e d i r o p q ds md

def JSONSchema.withRef : JSONSchema → Option String → JSONSchema
  | .mk t e d i _ o p q ds md, r => .mk t e d i r o p q ds md

def JSONSchema.withOneOf : JSONSchema → Option (List JSONSchema) → JSONSchema
  | .mk t e d i r _ p q ds md, o => .mk t e d i r o p q ds md

def JSONSchema.withProperties : JSONSchema → Option (List (String × JSONSchema)) → JSONSchema
  | .mk t e d i r o _ q ds md, p => .mk t e d i r o p q ds md

def JSONSchema.withRequired : JSONSchema → Option (List String) → JSONSchema
  | .mk t e d i r o p _ ds md, q => .mk t e d i r o p q ds md

def JSONSchema.withDescription : JSONSchema → Option String → JSONSchema
  | .mk t e d i r o p q _ md, ds => .mk t e d i r o p q ds md

def JSONSchema.withMarkdownDescription : JSONSchema → Option String → JSONSchema
  | .mk t e d i r o p q ds _, md => .mk t e d i r o p q ds md

/-- `Definitions` from the source: a JS object mapping type names to
schemas, modelled as an ordered association list. -/
abbrev Definitions := List (String × JSONSchema)

/-- `DefinitionResult` from the source. -/
structure DefinitionResult where
  definition : JSONSchema
  required : Bool
  definitions : List (String × JSONSchema)

/-- A GraphQL input type reference.  Input-object types carry only their
name; their fields are looked up in a `GQLEnv`, which is how the (possibly
cyclic) type graph of `graphql-js` type objects is represented. -/
inductive GQLType where
  | scalar (name : String) (description : Option String)
  | enum (name : String) (values : List String) (description : Option String)
  | inputObject (name : String)
  | list (ofType : GQLType)
  | nonNull (ofType : GQLType)

/-- A field of an input-object type (`GraphQLInputField`). -/
structure GQLField where
  name : String
  type : GQLType
  description : Option String
  defaultValue : Option JSONVal

/-- The body of an input-object type: its description and fields
(`type.description` / `type.getFields()`). -/
structure InputObjectDef where
  description : Option String
  fields : List GQLField

/-- The ambient schema: input-object type name to its body. -/
abbrev GQLEnv := List (String × InputObjectDef)

/-- `JSONSchemaOptions` from the source (`customScalarSchemas` absent is
modelled as the empty list). -/
structure JSONSchemaOptions where
  useMarkdownDescription : Bool
  customScalarSchemas : List (String × JSONSchema)

def defaultJSONSchemaOptions : JSONSchemaOptions :=
  { useMarkdownDescription := false, customScalarSchemas := [] }

/-- First-match lookup in an association list (JS property read). -/
def lookupKV {α : Type} : List (String × α) → String → Option α
  | [], _ => none
  | kv :: rest, k => if kv.1 == k then some kv.2 else lookupKV rest k

/-- JS object property assignment `o[k] = v`: overwrite in place when the
key exists, append otherwise. -/
def insertKV {α : Type} (l : List (String × α)) (k : String) (v : α) : List (String × α) :=
  if l.any (fun kv => kv.1 == k) then
    l.map (fun kv => if kv.1 == k then (k, v) else kv)
  else l ++ [(k, v)]

/-- `for (const defName of Object.keys(defs)) target[defName] = defs[defName]`. -/
def mergeDefs (target : List (String × JSONSchema)) (defs : List (String × JSONSchema)) :
    List (String × JSONSchema) :=
  defs.foldl (fun acc kv => insertKV acc kv.1 kv.2) target

/-- JS truthiness of an optional string (absent and `""` are falsy). -/
def strTruthy : Option String → Bool
  | some s => !(s == "")
  | none => false

/-- `renderType` from the source. -/
def renderType : GQLType → String
  | .nonNull ofType => renderType ofType ++ "!"
  | .list ofType => "[" ++ renderType ofType ++ "]"
  | .scalar name _ => name
  | .enum name _ _ => name
  | .inputObject name => name

/-- `renderTypeToString` from the source. -/
def renderTypeToString (t : GQLType) (useMarkdown : Bool) : String :=
  (if useMarkdown then "```graphql\n" else "") ++ renderType t ++
    (if useMarkdown then "\n```" else "")

/-- `scalarTypesMap` from the source. -/
def scalarTypesMap : List (String × String) :=
  [("Int", "integer"), ("String", "string"), ("Float", "number"),
   ("ID", "string"), ("Boolean", "boolean"), ("DateTime", "string")]

/-- `Marker.mark`: returns false when the name is already present,
otherwise adds it and returns true. -/
def markerMark (set : List String) (name : String) : Bool × List String :=
  if set.contains name then (false, set) else (true, name :: set)

/-- The fragment `{ type: 'null' }`. -/
def nullSchema : JSONSchema := JSONSchema.empty.withType (some (.single "null"))

/-- Source lines 177-183: either push a null alternative onto an existing
`oneOf` or wrap the whole fragment together with a null alternative. -/
def broadenOneOfOrWrap (definition : JSONSchema) : JSONSchema :=
  match definition.oneOf with
  | some alts => definition.withOneOf (some (alts ++ [nullSchema]))
  | none => JSONSchema.empty.withOneOf (some [definition, nullSchema])

/-- Source lines 172-184: broaden a custom-scalar fragment so that it also
accepts null.  `Array.isArray(definition.type)` picks the `multi` case; a
single tag is truthy only when non-empty. -/
def broadenWithNull (definition : JSONSchema) : JSONSchema :=
  match definition.type with
  | some (.multi tags) => definition.withType (some (.multi (tags ++ ["null"])))
  | some (.single tag) =>
    if !(tag == "") then definition.withType (some (.multi [tag, "null"]))
    else broadenOneOfOrWrap definition
  | none => broadenOneOfOrWrap definition

/-- Source lines 306-338, shared by type references and fields: backfill
`description` (and `markdownDescription` in markdown mode) from the
unwrapped type's own description and the rendered type signature. -/
def descriptionBackfill (hasDescriptionProp isScalar : Bool)
    (ofTypeDescription : Option String) (rendered renderedMarkdown : String)
    (useMarkdownDescription : Bool) (definition : JSONSchema) : JSONSchema :=
  if hasDescriptionProp && !isScalar && strTruthy ofTypeDescription &&
      !(strTruthy definition.description) then
    let definition := definition.withDescription
      (some (ofTypeDescription.getD "" ++ "\n" ++ rendered))
    if useMarkdownDescription then
      definition.withMarkdownDescription
        (some (ofTypeDescription.getD "" ++ "\n" ++ renderedMarkdown))
    else definition
  else if strTruthy definition.description then
    let newDescription := definition.description.getD "" ++ "\n" ++ rendered
    let definition := definition.withDescription (some newDescription)
    if useMarkdownDescription then
      definition.withMarkdownDescription (some (newDescription ++ "\n" ++ renderedMarkdown))
    else definition
  else
    let definition := definition.withDescription (some rendered)
    if useMarkdownDescription then
      definition.withMarkdownDescription (some renderedMarkdown)
    else definition

/-- `'description' in ofType`: `GraphQLList` and `GraphQLNonNull` wrappers
have no `description` property; named types do. -/
def gqlHasDescriptionProp : GQLType → Bool
  | .list _ => false
  | .nonNull _ => false
  | _ => true

def gqlIsScalarType : GQLType → Bool
  | .scalar _ _ => true
  | _ => false

/-- `ofType.description` for a type reference (input-object descriptions
live in the environment). -/
def gqlDescription (env : GQLEnv) : GQLType → Option String
  | .scalar _ d => d
  | .enum _ _ d => d
  | .inputObject name => (lookupKV env name).bind InputObjectDef.description
  | .list _ => none
  | .nonNull _ => none

/-- Source lines 306-338 applied to a type reference. -/
def typeBackfill (env : GQLEnv) (t : GQLType) (useMarkdownDescription : Bool)
    (definition : JSONSchema) : JSONSchema :=
  let ofType := match t with | .nonNull inner => inner | _ => t
  descriptionBackfill (gqlHasDescriptionProp ofType) (gqlIsScalarType ofType)
    (gqlDescription env ofType) (renderTypeToString t false) (renderTypeToString t true)
    useMarkdownDescription definition

/-- The call `getJSONSchemaFromGraphQLType(field, options)` on a
`GraphQLInputField` value: every type guard is false for a field object, so
only the default-value passthrough (line 144) and the description backfill
(lines 306-338) fire, and `renderType` on a field prints the field's name. -/
def getJSONSchemaFromField (field : GQLField) (useMarkdownDescription : Bool) : JSONSchema :=
  let definition := JSONSchema.empty
  let definition :=
    match field.defaultValue with
    | some v => definition.withDefault (some v)
    | none => definition
  descriptionBackfill true false field.description field.name
    ("```graphql\n" ++ field.name ++ "\n```") useMarkdownDescription definition

/-- JS object spread `{ ...a, ...b }` over the modelled members: a member
present on `b` wins. -/
def spreadMerge (a b : JSONSchema) : JSONSchema :=
  .mk (b.type.or a.type) (b.enum.or a.enum) (b.default.or a.default)
    (b.items.or a.items) (b.ref.or a.ref) (b.oneOf.or a.oneOf)
    (b.properties.or a.properties) (b.required.or a.required)
    (b.description.or a.description) (b.markdownDescription.or a.markdownDescription)

/-- The property fragment stored for one field (source lines 262-291):
the spread of the field-as-type call over the field-type call, with the
description (and markdown description) then overwritten. -/
def fieldProp (useMarkdownDescription : Bool) (field : GQLField)
    (typeResult : DefinitionResult) : JSONSchema :=
  let fieldDefinition := getJSONSchemaFromField field useMarkdownDescription
  let prop := spreadMerge typeResult.definition fieldDefinition
  let renderedField := renderTypeToString field.type false
  let prop := prop.withDescription (some
    (if strTruthy field.description then field.description.getD "" ++ "\n" ++ renderedField
     else renderedField))
  if useMarkdownDescription then
    let renderedFieldMarkdown := renderTypeToString field.type true
    prop.withMarkdownDescription (some
      (if strTruthy field.description then
         field.description.getD "" ++ "\n" ++ renderedFieldMarkdown
       else renderedFieldMarkdown))
  else prop

/-- One field's update of the growing `fieldDef` (source lines 274-295):
store the property and record the field in the required list when its type
is non-null. -/
def fieldStepFieldDef (useMarkdownDescription : Bool) (field : GQLField)
    (typeResult : DefinitionResult) (fieldDef : JSONSchema) : JSONSchema :=
  let fieldDef := fieldDef.withProperties
    (some (insertKV (fieldDef.properties.getD []) field.name
      (fieldProp useMarkdownDescription field typeResult)))
  if typeResult.required then
    fieldDef.withRequired (some (fieldDef.required.getD [] ++ [field.name]))
  else fieldDef

/-- The field loop of the input-object branch (source lines 261-301),
abstracted over the recursive call `go`.  The accumulator is the growing
`fieldDef`, the `definitions` object of the enclosing call, and the marker
state. -/
def processFields (go : GQLType → Bool → List String → Option (DefinitionResult × List String))
    (useMarkdownDescription : Bool) :
    List GQLField → JSONSchema × List (String × JSONSchema) × List String →
    Option (JSONSchema × List (String × JSONSchema) × List String)
  | [], acc => some acc
  | field :: rest, (fieldDef, definitions, marked) =>
    match go field.type false marked with
    | none => none
    | some (typeResult, marked') =>
      processFields go useMarkdownDescription rest
        (fieldStepFieldDef useMarkdownDescription field typeResult fieldDef,
         mergeDefs definitions typeResult.definitions, marked')

/-- Lines 306-338 fire only in a nullable context. -/
def backfillIfNullable (env : GQLEnv) (t : GQLType) (options : JSONSchemaOptions)
    (isNonNull : Bool) (definition : JSONSchema) : JSONSchema :=
  if !isNonNull then typeBackfill env t options.useMarkdownDescription definition
  else definition

/-- The enum fragment of lines 148-153. -/
def enumCoreFragment (values : List String) (isNonNull : Bool) : JSONSchema :=
  JSONSchema.empty.withEnum (some (values.map some ++ (if !isNonNull then [none] else [])))

/-- The scalar fragment of lines 155-186. -/
def scalarCoreFragment (options : JSONSchemaOptions) (name : String) (isNonNull : Bool) :
    JSONSchema :=
  match lookupKV scalarTypesMap name with
  | some tag =>
    if isNonNull then JSONSchema.empty.withType (some (.single tag))
    else JSONSchema.empty.withType (some (.multi [tag, "null"]))
  | none =>
    let definition :=
      match lookupKV options.customScalarSchemas name with
      | some override => override  -- deep clone of caller data
      | none =>
        JSONSchema.empty.withType (some (.multi ["string", "number", "boolean", "integer"]))
    if !isNonNull then broadenWithNull definition else definition

/-- The list fragment of lines 188-205, given the already-synthesized inner
definition. -/
def listFragment (isNonNull : Bool) (innerDefinition : JSONSchema) : JSONSchema :=
  let definition :=
    if isNonNull then JSONSchema.empty.withType (some (.single "array"))
    else JSONSchema.empty.withType (some (.multi ["array", "null"]))
  if strTruthy innerDefinition.ref then
    definition.withItems (some (JSONSchema.empty.withRef innerDefinition.ref))
  else if innerDefinition.oneOf.isSome then
    definition.withItems (some (JSONSchema.empty.withOneOf innerDefinition.oneOf))
  else definition.withItems (some innerDefinition)

/-- The input-object reference fragment of lines 228-236. -/
def inputObjectFragment (name : String) (isNonNull : Bool) : JSONSchema :=
  if isNonNull then JSONSchema.empty.withRef (some ("#/definitions/" ++ name))
  else JSONSchema.empty.withOneOf
    (some [JSONSchema.empty.withRef (some ("#/definitions/" ++ name)), nullSchema])

/-- The fields of an input-object type as read from the environment
(`type.getFields()`; a name missing from the environment has no fields). -/
def objFields (env : GQLEnv) (name : String) : List GQLField :=
  ((lookupKV env name).map InputObjectDef.fields).getD []

/-- The freshly initialized `fieldDef` of lines 240-259. -/
def initialFieldDef (env : GQLEnv) (options : JSONSchemaOptions) (name : String) : JSONSchema :=
  let typeDescription := (lookupKV env name).bind InputObjectDef.description
  let fieldDef := ((JSONSchema.empty.withType (some (.single "object"))).withProperties
    (some [])).withRequired (some [])
  if strTruthy typeDescription then
    let fd := fieldDef.withDescription
      (some (typeDescription.getD "" ++ "\n" ++ renderTypeToString (.inputObject name) false))
    if options.useMarkdownDescription then
      fd.withMarkdownDescription
        (some (typeDescription.getD "" ++ "\n" ++ renderTypeToString (.inputObject name) true))
    else fd
  else
    let fd := fieldDef.withDescription (some (renderTypeToString (.inputObject name) false))
    if options.useMarkdownDescription then
      fd.withMarkdownDescription (some (renderTypeToString (.inputObject name) true))
    else fd

/-- `getJSONSchemaFromGraphQLType` from the source, with an explicit fuel
parameter bounding the recursion depth and the marker set threaded as
state.  Returns `none` only when the fuel runs out. -/
def getJSONSchemaFromGraphQLType (env : GQLEnv) :
    Nat → GQLType → JSONSchemaOptions → Bool → List String →
    Option (DefinitionResult × List String)
  | 0, _, _, _, _ => none
  | fuel + 1, t, options, isNonNull, marked =>
    (match t with
     | .enum _name values _d =>
       -- lines 148-153
       some (false, enumCoreFragment values isNonNull, ([] : List (String × JSONSchema)), marked)
     | .scalar name _d =>
       -- lines 155-186
       some (false, scalarCoreFragment options name isNonNull,
         ([] : List (String × JSONSchema)), marked)
     | .list ofType =>
       -- lines 188-211
       (match getJSONSchemaFromGraphQLType env fuel ofType options false marked with
        | none => none
        | some (innerResult, marked') =>
          some (false, listFragment isNonNull innerResult.definition,
            mergeDefs [] innerResult.definitions, marked'))
     | .nonNull ofType =>
       -- lines 213-226
       (match getJSONSchemaFromGraphQLType env fuel ofType options true marked with
        | none => none
        | some (innerResult, marked') =>
          some (true, innerResult.definition, mergeDefs [] innerResult.definitions, marked'))
     | .inputObject name =>
       -- lines 228-304
       let definition := inputObjectFragment name isNonNull
       let (fresh, marked) := markerMark marked name
       if fresh then
         (match processFields
             (fun ty nn st => getJSONSchemaFromGraphQLType env fuel ty options nn st)
             options.useMarkdownDescription (objFields env name)
             (initialFieldDef env options name, ([] : List (String × JSONSchema)), marked) with
          | none => none
          | some (fieldDef, definitions, marked') =>
            some (false, definition, insertKV definitions name fieldDef, marked'))
       else
         some (false, definition, ([] : List (String × JSONSchema)), marked)
    ).map (fun out =>
      match out with
      | (required, definition, definitions, marked') =>
        -- lines 306-338
        (⟨backfillIfNullable env t options isNonNull definition, required, definitions⟩, marked'))

/-- Structural size of a type reference, used for the fuel bound. -/
def tsize : GQLType → Nat
  | .list ofType => tsize ofType + 1
  | .nonNull ofType => tsize ofType + 1
  | _ => 1

/-- Total weight of one field list. -/
def fieldsWeight : List GQLField → Nat
  | [] => 0
  | f :: rest => tsize f.type + 1 + fieldsWeight rest

/-- Total weight of the environment's field types; dominates the size of
any single field type. -/
def envWeight : GQLEnv → Nat
  | [] => 1
  | e :: rest => fieldsWeight e.2.fields + envWeight rest

/-- How many environment type names are not yet marked. -/
def unmarkedCount (env : GQLEnv) (marked : List String) : Nat :=
  ((env.map Prod.fst).filter (fun n => !marked.contains n)).length

/-- A fuel value that always suffices (proved below): the input-object
branch can fire at most once per unmarked environment name. -/
def initialFuel (env : GQLEnv) (marked : List String) (t : GQLType) : Nat :=
  tsize t + unmarkedCount env marked * (envWeight env + 1) + 1

/-- The document produced by `getVariablesJSONSchema` (`definitions = none`
models the `definitions` key being absent). -/
structure JSONSchemaDoc where
  schemaUri : String
  type : String
  properties : List (String × JSONSchema)
  required : List String
  definitions : Option (List (String × JSONSchema))

def initialJSONSchemaDoc : JSONSchemaDoc :=
  { schemaUri := "https://json-schema.org/draft/2020-12/schema"
    type := "object"
    properties := []
    required := []
    definitions := none }

/-- One iteration of the variable loop of `getVariablesJSONSchema`
(source lines 398-408). -/
def buildStep (env : GQLEnv) (options : JSONSchemaOptions)
    (acc : Option (JSONSchemaDoc × List String)) (entry : String × GQLType) :
    Option (JSONSchemaDoc × List String) := do
  let (jsonSchema, marked) ← acc
  let (result, marked') ←
    getJSONSchemaFromGraphQLType env (initialFuel env marked entry.2) entry.2 options
      false marked
  let jsonSchema :=
    { jsonSchema with properties := insertKV jsonSchema.properties entry.1 result.definition }
  let jsonSchema :=
    if result.required then { jsonSchema with required := jsonSchema.required ++ [entry.1] }
    else jsonSchema
  let mergedDefinitions := mergeDefs (jsonSchema.definitions.getD []) result.definitions
  let jsonSchema := { jsonSchema with definitions := some mergedDefinitions }
  pure (jsonSchema, marked')

/-- `getVariablesJSONSchema` from the source, additionally returning the
final marker state.  Each iteration supplies enough fuel for its variable
given the current marker state. -/
def buildVariablesJSONSchema (env : GQLEnv) (variableToType : List (String × GQLType))
    (options : JSONSchemaOptions) : Option (JSONSchemaDoc × List String) :=
  variableToType.foldl (buildStep env options) (some (initialJSONSchemaDoc, []))

/-- `getVariablesJSONSchema` from the source. -/
def getVariablesJSONSchema (env : GQLEnv) (variableToType : List (String × GQLType))
    (options : JSONSchemaOptions) : Option JSONSchemaDoc :=
  (buildVariablesJSONSchema env variableToType options).map Prod.fst


mutual

/-- All `$ref` strings occurring anywhere in a fragment: in its own `ref`
member, its items schema, its `oneOf` alternatives, or nested object
properties. -/
def refsIn : JSONSchema → List String
  | .mk _ _ _ items ref oneOf properties _ _ _ =>
    (match ref with | some r => [r] | none => []) ++
    (match items with | some i => refsIn i | none => []) ++
    (match oneOf with | some alts => refsInList alts | none => []) ++
    (match properties with | some props => refsInPairs props | none => [])

def refsInList : List JSONSchema → List String
  | [] => []
  | s :: rest => refsIn s ++ refsInList rest

def refsInPairs : List (String × JSONSchema) → List String
  | [] => []
  | kv :: rest => refsIn kv.2 ++ refsInPairs rest

end

/-- The keys of the returned document's definitions map. -/
def defsKeys (doc : JSONSchemaDoc) : List String :=
  (doc.definitions.getD []).map Prod.fst

/-- All `$ref` strings occurring anywhere in the returned document: in the
variable property fragments or inside registered definitions. -/
def docRefs (doc : JSONSchemaDoc) : List String :=
  refsInPairs doc.properties ++ refsInPairs (doc.definitions.getD [])

/-- Is this fragment the null alternative `{ type: 'null' }`? -/
def isNullSchemaAlt (s : JSONSchema) : Bool :=
  match s.type with
  | some (.single tag) => tag == "null"
  | _ => false

/-- Does a fragment offer `null` at its own top level: a `'null'` entry in
its type tag(s), a `null` entry in its enum list, or a `{ type: 'null' }`
alternative in its `oneOf` list? -/
def hasTopNullAlt (s : JSONSchema) : Bool :=
  (match s.type with
   | some (.single tag) => tag == "null"
   | some (.multi tags) => tags.contains "null"
   | none => false) ||
  (match s.enum with
   | some vs => vs.contains none
   | none => false) ||
  (match s.oneOf with
   | some alts => alts.any isNullSchemaAlt
   | none => false)

mutual

/-- Deep check: every sub-fragment that carries a `description` member also
carries a `markdownDescription` member. -/
def mdCoversDesc : JSONSchema → Bool
  | .mk _ _ _ items _ oneOf properties _ description markdownDescription =>
    (description.isNone || markdownDescription.isSome) &&
    (match items with | some i => mdCoversDesc i | none => true) &&
    (match oneOf with | some alts => mdCoversDescList alts | none => true) &&
    (match properties with | some props => mdCoversDescPairs props | none => true)

def mdCoversDescList : List JSONSchema → Bool
  | [] => true
  | s :: rest => mdCoversDesc s && mdCoversDescList rest

def mdCoversDescPairs : List (String × JSONSchema) → Bool
  | [] => true
  | kv :: rest => mdCoversDesc kv.2 && mdCoversDescPairs rest

end

mutual

/-- All `markdownDescription` strings occurring anywhere in a fragment. -/
def mdsIn : JSONSchema → List String
  | .mk _ _ _ items _ oneOf properties _ _ markdownDescription =>
    (match markdownDescription with | some m => [m] | none => []) ++
    (match items with | some i => mdsIn i | none => []) ++
    (match oneOf with | some alts => mdsInList alts | none => []) ++
    (match properties with | some props => mdsInPairs props | none => [])

def mdsInList : List JSONSchema → List String
  | [] => []
  | s :: rest => mdsIn s ++ mdsInList rest

def mdsInPairs : List (String × JSONSchema) → List String
  | [] => []
  | kv :: rest => mdsIn kv.2 ++ mdsInPairs rest

end

/-- Deep desc-implies-md check over a whole document. -/
def docMdCoversDesc (doc : JSONSchemaDoc) : Bool :=
  mdCoversDescPairs doc.properties && mdCoversDescPairs (doc.definitions.getD [])

/-- All markdown description strings of a whole document. -/
def docMds (doc : JSONSchemaDoc) : List String :=
  mdsInPairs doc.properties ++ mdsInPairs (doc.definitions.getD [])

/-- The string contains a fenced graphql code block. -/
def ContainsFencedBlock (m : String) : Prop :=
  ∃ before code, m = before ++ ("```graphql\n" ++ code ++ "\n```")


@[simp] theorem JSONSchema.type_mk (t e d i r o p q ds md) :
    (JSONSchema.mk t e d i r o p q ds md).type = t := rfl

@[simp] theorem JSONSchema.enum_mk (t e d i r o p q ds md) :
    (JSONSchema.mk t e d i r o p q ds md).enum = e := rfl

@[simp] theorem JSONSchema.default_mk (t e d i r o p q ds md) :
    (JSONSchema.mk t e d i r o p q ds md).default = d := rfl

@[simp] theorem JSONSchema.items_mk (t e d i r o p q ds md) :
    (JSONSchema.mk t e d i r o p q ds md).items = i := rfl

@[simp] theorem JSONSchema.ref_mk (t e d i r o p q ds md) :
    (JSONSchema.mk t e d i r o p q ds md).ref = r := rfl

@[simp] theorem JSONSchema.oneOf_mk (t e d i r o p q ds md) :
    (JSONSchema.mk t e d i r o p q ds md).oneOf = o := rfl

@[simp] theorem JSONSchema.properties_mk (t e d i r o p q ds md) :
    (JSONSchema.mk t e d i r o p q ds md).properties = p := rfl

@[simp] theorem JSONSchema.required_mk (t e d i r o p q ds md) :
    (JSONSchema.mk t e d i r o p q ds md).required = q := rfl

@[simp] theorem JSONSchema.description_mk (t e d i r o p q ds md) :
    (JSONSchema.mk t e d i r o p q ds md).description = ds := rfl

@[simp] theorem JSONSchema.markdownDescription_mk (t e d i r o p q ds md) :
    (JSONSchema.mk t e d i r o p q ds md).markdownDescription = md := rfl

@[simp] theorem JSONSchema.type_withType (x : JSONSchema) (v) :
    (x.withType v).type = v := by cases x; rfl

@[simp] theorem JSONSchema.enum_withType (x : JSONSchema) (v) :
    (x.withType v).enum = x.enum := by cases x; rfl

@[simp] theorem JSONSchema.default_withType (x : JSONSchema) (v) :
    (x.withType v).default = x.default := by cases x; rfl

@[simp] theorem JSONSchema.items_withType (x : JSONSchema) (v) :
    (x.withType v).items = x.items := by cases x; rfl

@[simp] theorem JSONSchema.ref_withType (x : JSONSchema) (v) :
    (x.withType v).ref = x.ref := by cases x; rfl

@[simp] theorem JSONSchema.oneOf_withType (x : JSONSchema) (v) :
    (x.withType v).oneOf = x.oneOf := by cases x; rfl

@[simp] theorem JSONSchema.properties_withType (x : JSONSchema) (v) :
    (x.withType v).properties = x.properties := by cases x; rfl

@[simp] theorem JSONSchema.required_withType (x : JSONSchema) (v) :
    (x.withType v).required = x.required := by cases x; rfl

@[simp] theorem JSONSchema.description_withType (x : JSONSchema) (v) :
    (x.withType v).description = x.description := by cases x; rfl

@[simp] theorem JSONSchema.markdownDescription_withType (x : JSONSchema) (v) :
    (x.withType v).markdownDescription = x.markdownDescription := by cases x; rfl

@[simp] theorem JSONSchema.type_withEnum (x : JSONSchema) (v) :
    (x.withEnum v).type = x.type := by cases x; rfl

@[simp] theorem JSONSchema.enum_withEnum (x : JSONSchema) (v) :
    (x.withEnum v).enum = v := by cases x; rfl

@[simp] theorem JSONSchema.default_withEnum (x : JSONSchema) (v) :
    (x.withEnum v).default = x.default := by cases x; rfl

@[simp] theorem JSONSchema.items_withEnum (x : JSONSchema) (v) :
    (x.withEnum v).items = x.items := by cases x; rfl

@[simp] theorem JSONSchema.ref_withEnum (x : JSONSchema) (v) :
    (x.withEnum v).ref = x.ref := by cases x; rfl

@[simp] theorem JSONSchema.oneOf_withEnum (x : JSONSchema) (v) :
    (x.withEnum v).oneOf = x.oneOf := by cases x; rfl

@[simp] theorem JSONSchema.properties_withEnum (x : JSONSchema) (v) :
    (x.withEnum v).properties = x.properties := by cases x; rfl

@[simp] theorem JSONSchema.required_withEnum (x : JSONSchema) (v) :
    (x.withEnum v).required = x.required := by cases x; rfl

@[simp] theorem JSONSchema.description_withEnum (x : JSONSchema) (v) :
    (x.withEnum v).description = x.description := by cases x; rfl

@[simp] theorem JSONSchema.markdownDescription_withEnum (x : JSONSchema) (v) :
    (x.withEnum v).markdownDescription = x.markdownDescription := by cases x; rfl

@[simp] theorem JSONSchema.type_withDefault (x : JSONSchema) (v) :
    (x.withDefault v).type = x.type := by cases x; rfl

@[simp] theorem JSONSchema.enum_withDefault (x : JSONSchema) (v) :
    (x.withDefault v).enum = x.enum := by cases x; rfl

@[simp] theorem JSONSchema.default_withDefault (x : JSONSchema) (v) :
    (x.withDefault v).default = v := by cases x; rfl

@[simp] theorem JSONSchema.items_withDefault (x : JSONSchema) (v) :
    (x.withDefault v).items = x.items := by cases x; rfl

@[simp] theorem JSONSchema.ref_withDefault (x : JSONSchema) (v) :
    (x.withDefault v).ref = x.ref := by cases x; rfl

@[simp] theorem JSONSchema.oneOf_withDefault (x : JSONSchema) (v) :
    (x.withDefault v).oneOf = x.oneOf := by cases x; rfl

@[simp] theorem JSONSchema.properties_withDefault (x : JSONSchema) (v) :
    (x.withDefault v).properties = x.properties := by cases x; rfl

@[simp] theorem JSONSchema.required_withDefault (x : JSONSchema) (v) :
    (x.withDefault v).required = x.required := by cases x; rfl

@[simp] theorem JSONSchema.description_withDefault (x : JSONSchema) (v) :
    (x.withDefault v).description = x.description := by cases x; rfl

@[simp] theorem JSONSchema.markdownDescription_withDefault (x : JSONSchema) (v) :
    (x.withDefault v).markdownDescription = x.markdownDescription := by cases x; rfl

@[simp] theorem JSONSchema.type_withItems (x : JSONSchema) (v) :
    (x.withItems v).type = x.type := by cases x; rfl

@[simp] theorem JSONSchema.enum_withItems (x : JSONSchema) (v) :
    (x.withItems v).enum = x.enum := by cases x; rfl

@[simp] theorem JSONSchema.default_withItems (x : JSONSchema) (v) :
    (x.withItems v).default = x.default := by cases x; rfl

@[simp] theorem JSONSchema.items_withItems (x : JSONSchema) (v) :
    (x.withItems v).items = v := by cases x; rfl

@[simp] theorem JSONSchema.ref_withItems (x : JSONSchema) (v) :
    (x.withItems v).ref = x.ref := by cases x; rfl

@[simp] theorem JSONSchema.oneOf_withItems (x : JSONSchema) (v) :
    (x.withItems v).oneOf = x.oneOf := by cases x; rfl

@[simp] theorem JSONSchema.properties_withItems (x : JSONSchema) (v) :
    (x.withItems v).properties = x.properties := by cases x; rfl

@[simp] theorem JSONSchema.required_withItems (x : JSONSchema) (v) :
    (x.withItems v).required = x.required := by cases x; rfl

@[simp] theorem JSONSchema.description_withItems (x : JSONSchema) (v) :
    (x.withItems v).description = x.description := by cases x; rfl

@[simp] theorem JSONSchema.markdownDescription_withItems (x : JSONSchema) (v) :
    (x.withItems v).markdownDescription = x.markdownDescription := by cases x; rfl

@[simp] theorem JSONSchema.type_withRef (x : JSONSchema) (v) :
    (x.withRef v).type = x.type := by cases x; rfl

@[simp] theorem JSONSchema.enum_withRef (x : JSONSchema) (v) :
    (x.withRef v).enum = x.enum := by cases x; rfl

@[simp] theorem JSONSchema.default_withRef (x : JSONSchema) (v) :
    (x.withRef v).default = x.default := by cases x; rfl

@[simp] theorem JSONSchema.items_withRef (x : JSONSchema) (v) :
    (x.withRef v).items = x.items := by cases x; rfl

@[simp] theorem JSONSchema.ref_withRef (x : JSONSchema) (v) :
    (x.withRef v).ref = v := by cases x; rfl

@[simp] theorem JSONSchema.oneOf_withRef (x : JSONSchema) (v) :
    (x.withRef v).oneOf = x.oneOf := by cases x; rfl

@[simp] theorem JSONSchema.properties_withRef (x : JSONSchema) (v) :
    (x.withRef v).properties = x.properties := by cases x; rfl

@[simp] theorem JSONSchema.required_withRef (x : JSONSchema) (v) :
    (x.withRef v).required = x.required := by cases x; rfl

@[simp] theorem JSONSchema.description_withRef (x : JSONSchema) (v) :
    (x.withRef v).description = x.description := by cases x; rfl

@[simp] theorem JSONSchema.markdownDescription_withRef (x : JSONSchema) (v) :
    (x.withRef v).markdownDescription = x.markdownDescription := by cases x; rfl

@[simp] theorem JSONSchema.type_withOneOf (x : JSONSchema) (v) :
    (x.withOneOf v).type = x.type := by cases x; rfl

@[simp] theorem JSONSchema.enum_withOneOf (x : JSONSchema) (v) :
    (x.withOneOf v).enum = x.enum := by cases x; rfl

@[simp] theorem JSONSchema.default_withOneOf (x : JSONSchema) (v) :
    (x.withOneOf v).default = x.default := by cases x; rfl

@[simp] theorem JSONSchema.items_withOneOf (x : JSONSchema) (v) :
    (x.withOneOf v).items = x.items := by cases x; rfl

@[simp] theorem JSONSchema.ref_withOneOf (x : JSONSchema) (v) :
    (x.withOneOf v).ref = x.ref := by cases x; rfl

@[simp] theorem JSONSchema.oneOf_withOneOf (x : JSONSchema) (v) :
    (x.withOneOf v).oneOf = v := by cases x; rfl

@[simp] theorem JSONSchema.properties_withOneOf (x : JSONSchema) (v) :
    (x.withOneOf v).properties = x.properties := by cases x; rfl

@[simp] theorem JSONSchema.required_withOneOf (x : JSONSchema) (v) :
    (x.withOneOf v).required = x.required := by cases x; rfl

@[simp] theorem JSONSchema.description_withOneOf (x : JSONSchema) (v) :
    (x.withOneOf v).description = x.description := by cases x; rfl

@[simp] theorem JSONSchema.markdownDescription_withOneOf (x : JSONSchema) (v) :
    (x.withOneOf v).markdownDescription = x.markdownDescription := by cases x; rfl

@[simp] theorem JSONSchema.type_withProperties (x : JSONSchema) (v) :
    (x.withProperties v).type = x.type := by cases x; rfl

@[simp] theorem JSONSchema.enum_withProperties (x : JSONSchema) (v) :
    (x.withProperties v).enum = x.enum := by cases x; rfl

@[simp] theorem JSONSchema.default_withProperties (x : JSONSchema) (v) :
    (x.withProperties v).default = x.default := by cases x; rfl

@[simp] theorem JSONSchema.items_withProperties (x : JSONSchema) (v) :
    (x.withProperties v).items = x.items := by cases x; rfl

@[simp] theorem JSONSchema.ref_withProperties (x : JSONSchema) (v) :
    (x.withProperties v).ref = x.ref := by cases x; rfl

@[simp] theorem JSONSchema.oneOf_withProperties (x : JSONSchema) (v) :
    (x.withProperties v).oneOf = x.oneOf := by cases x; rfl

@[simp] theorem JSONSchema.properties_withProperties (x : JSONSchema) (v) :
    (x.withProperties v).properties = v := by cases x; rfl

@[simp] theorem JSONSchema.required_withProperties (x : JSONSchema) (v) :
    (x.withProperties v).required = x.required := by cases x; rfl

@[simp] theorem JSONSchema.description_withProperties (x : JSONSchema) (v) :
    (x.withProperties v).description = x.description := by cases x; rfl

@[simp] theorem JSONSchema.markdownDescription_withProperties (x : JSONSchema) (v) :
    (x.withProperties v).markdownDescription = x.markdownDescription := by cases x; rfl

@[simp] theorem JSONSchema.type_withRequired (x : JSONSchema) (v) :
    (x.withRequired v).type = x.type := by cases x; rfl

@[simp] theorem JSONSchema.enum_withRequired (x : JSONSchema) (v) :
    (x.withRequired v).enum = x.enum := by cases x; rfl

@[simp] theorem JSONSchema.default_withRequired (x : JSONSchema) (v) :
    (x.withRequired v).default = x.default := by cases x; rfl

@[simp] theorem JSONSchema.items_withRequired (x : JSONSchema) (v) :
    (x.withRequired v).items = x.items := by cases x; rfl

@[simp] theorem JSONSchema.ref_withRequired (x : JSONSchema) (v) :
    (x.withRequired v).ref = x.ref := by cases x; rfl

@[simp] theorem JSONSchema.oneOf_withRequired (x : JSONSchema) (v) :
    (x.withRequired v).oneOf = x.oneOf := by cases x; rfl

@[simp] theorem JSONSchema.properties_withRequired (x : JSONSchema) (v) :
    (x.withRequired v).properties = x.properties := by cases x; rfl

@[simp] theorem JSONSchema.required_withRequired (x : JSONSchema) (v) :
    (x.withRequired v).required = v := by cases x; rfl

@[simp] theorem JSONSchema.description_withRequired (x : JSONSchema) (v) :
    (x.withRequired v).description = x.description := by cases x; rfl

@[simp] theorem JSONSchema.markdownDescription_withRequired (x : JSONSchema) (v) :
    (x.withRequired v).markdownDescription = x.markdownDescription := by cases x; rfl

@[simp] theorem JSONSchema.type_withDescription (x : JSONSchema) (v) :
    (x.withDescription v).type = x.type := by cases x; rfl

@[simp] theorem JSONSchema.enum_withDescription (x : JSONSchema) (v) :
    (x.withDescription v).enum = x.enum := by cases x; rfl

@[simp] theorem JSONSchema.default_withDescription (x : JSONSchema) (v) :
    (x.withDescription v).default = x.default := by cases x; rfl

@[simp] theorem JSONSchema.items_withDescription (x : JSONSchema) (v) :
    (x.withDescription v).items = x.items := by cases x; rfl

@[simp] theorem JSONSchema.ref_withDescription (x : JSONSchema) (v) :
    (x.withDescription v).ref = x.ref := by cases x; rfl

@[simp] theorem JSONSchema.oneOf_withDescription (x : JSONSchema) (v) :
    (x.withDescription v).oneOf = x.oneOf := by cases x; rfl

@[simp] theorem JSONSchema.properties_withDescription (x : JSONSchema) (v) :
    (x.withDescription v).properties = x.properties := by cases x; rfl

@[simp] theorem JSONSchema.required_withDescription (x : JSONSchema) (v) :
    (x.withDescription v).required = x.required := by cases x; rfl

@[simp] theorem JSONSchema.description_withDescription (x : JSONSchema) (v) :
    (x.withDescription v).description = v := by cases x; rfl

@[simp] theorem JSONSchema.markdownDescription_withDescription (x : JSONSchema) (v) :
    (x.withDescription v).markdownDescription = x.markdownDescription := by cases x; rfl

@[simp] theorem JSONSchema.type_withMarkdownDescription (x : JSONSchema) (v) :
    (x.withMarkdownDescription v).type = x.type := by cases x; rfl

@[simp] theorem JSONSchema.enum_withMarkdownDescription (x : JSONSchema) (v) :
    (x.withMarkdownDescription v).enum = x.enum := by cases x; rfl

@[simp] theorem JSONSchema.default_withMarkdownDescription (x : JSONSchema) (v) :
    (x.withMarkdownDescription v).default = x.default := by cases x; rfl

@[simp] theorem JSONSchema.items_withMarkdownDescription (x : JSONSchema) (v) :
    (x.withMarkdownDescription v).items = x.items := by cases x; rfl

@[simp] theorem JSONSchema.ref_withMarkdownDescription (x : JSONSchema) (v) :
    (x.withMarkdownDescription v).ref = x.ref := by cases x; rfl

@[simp] theorem JSONSchema.oneOf_withMarkdownDescription (x : JSONSchema) (v) :
    (x.withMarkdownDescription v).oneOf = x.oneOf := by cases x; rfl

@[simp] theorem JSONSchema.properties_withMarkdownDescription (x : JSONSchema) (v) :
    (x.withMarkdownDescription v).properties = x.properties := by cases x; rfl

@[simp] theorem JSONSchema.required_withMarkdownDescription (x : JSONSchema) (v) :
    (x.withMarkdownDescription v).required = x.required := by cases x; rfl

@[simp] theorem JSONSchema.description_withMarkdownDescription (x : JSONSchema) (v) :
    (x.withMarkdownDescription v).description = x.description := by cases x; rfl

@[simp] theorem JSONSchema.markdownDescription_withMarkdownDescription (x : JSONSchema) (v) :
    (x.withMarkdownDescription v).markdownDescription = v := by cases x; rfl

theorem JSONSchema.withMarkdownDescription_self (x : JSONSchema) :
    x.withMarkdownDescription x.markdownDescription = x := by
  cases x; rfl

theorem String.append_empty_right (s : String) : s ++ "" = s := by
  cases s; simp [String.append]

theorem String.append_empty_left (s : String) : "" ++ s = s := by
  cases s; simp [String.append]

theorem renderTypeToString_plain (t : GQLType) : renderTypeToString t false = renderType t := by
  simp [renderTypeToString, String.append_empty_right, String.append_empty_left]

/-- The description backfill only touches the `description` and
`markdownDescription` members. -/
theorem descriptionBackfill_eq_setters (hp sc : Bool) (od : Option String) (r rm : String)
    (umd : Bool) (x : JSONSchema) :
    ∃ ds md, descriptionBackfill hp sc od r rm umd x =
      (x.withDescription ds).withMarkdownDescription md := by
  unfold descriptionBackfill
  split
  · split
    · exact ⟨_, _, rfl⟩
    · exact ⟨_, (x.withDescription _).markdownDescription,
        (JSONSchema.withMarkdownDescription_self _).symm⟩
  · split
    · split
      · exact ⟨_, _, rfl⟩
      · exact ⟨_, (x.withDescription _).markdownDescription,
          (JSONSchema.withMarkdownDescription_self _).symm⟩
    · split
      · exact ⟨_, _, rfl⟩
      · exact ⟨_, (x.withDescription _).markdownDescription,
          (JSONSchema.withMarkdownDescription_self _).symm⟩

theorem descriptionBackfill_type (hp sc : Bool) (od : Option String) (r rm : String)
    (umd : Bool) (x : JSONSchema) :
    (descriptionBackfill hp sc od r rm umd x).type = x.type := by
  obtain ⟨ds, md, h⟩ := descriptionBackfill_eq_setters hp sc od r rm umd x
  rw [h]; simp

theorem descriptionBackfill_enum (hp sc : Bool) (od : Option String) (r rm : String)
    (umd : Bool) (x : JSONSchema) :
    (descriptionBackfill hp sc od r rm umd x).enum = x.enum := by
  obtain ⟨ds, md, h⟩ := descriptionBackfill_eq_setters hp sc od r rm umd x
  rw [h]; simp

theorem descriptionBackfill_default (hp sc : Bool) (od : Option String) (r rm : String)
    (umd : Bool) (x : JSONSchema) :
    (descriptionBackfill hp sc od r rm umd x).default = x.default := by
  obtain ⟨ds, md, h⟩ := descriptionBackfill_eq_setters hp sc od r rm umd x
  rw [h]; simp

theorem descriptionBackfill_items (hp sc : Bool) (od : Option String) (r rm : String)
    (umd : Bool) (x : JSONSchema) :
    (descriptionBackfill hp sc od r rm umd x).items = x.items := by
  obtain ⟨ds, md, h⟩ := descriptionBackfill_eq_setters hp sc od r rm umd x
  rw [h]; simp

theorem descriptionBackfill_ref (hp sc : Bool) (od : Option String) (r rm : String)
    (umd : Bool) (x : JSONSchema) :
    (descriptionBackfill hp sc od r rm umd x).ref = x.ref := by
  obtain ⟨ds, md, h⟩ := descriptionBackfill_eq_setters hp sc od r rm umd x
  rw [h]; simp

theorem descriptionBackfill_oneOf (hp sc : Bool) (od : Option String) (r rm : String)
    (umd : Bool) (x : JSONSchema) :
    (descriptionBackfill hp sc od r rm umd x).oneOf = x.oneOf := by
  obtain ⟨ds, md, h⟩ := descriptionBackfill_eq_setters hp sc od r rm umd x
  rw [h]; simp

theorem descriptionBackfill_properties (hp sc : Bool) (od : Option String) (r rm : String)
    (umd : Bool) (x : JSONSchema) :
    (descriptionBackfill hp sc od r rm umd x).properties = x.properties := by
  obtain ⟨ds, md, h⟩ := descriptionBackfill_eq_setters hp sc od r rm umd x
  rw [h]; simp

theorem descriptionBackfill_required (hp sc : Bool) (od : Option String) (r rm : String)
    (umd : Bool) (x : JSONSchema) :
    (descriptionBackfill hp sc od r rm umd x).required = x.required := by
  obtain ⟨ds, md, h⟩ := descriptionBackfill_eq_setters hp sc od r rm umd x
  rw [h]; simp

theorem refsIn_setters (x : JSONSchema) (ds md : Option String) :
    refsIn ((x.withDescription ds).withMarkdownDescription md) = refsIn x := by
  cases x
  simp only [JSONSchema.withDescription, JSONSchema.withMarkdownDescription]
  conv_lhs => rw [refsIn.eq_def]
  conv_rhs => rw [refsIn.eq_def]

theorem refsIn_descriptionBackfill (hp sc : Bool) (od : Option String) (r rm : String)
    (umd : Bool) (x : JSONSchema) :
    refsIn (descriptionBackfill hp sc od r rm umd x) = refsIn x := by
  obtain ⟨ds, md, h⟩ := descriptionBackfill_eq_setters hp sc od r rm umd x
  rw [h, refsIn_setters]

theorem typeBackfill_eq_backfill (env : GQLEnv) (t : GQLType) (umd : Bool) (x : JSONSchema) :
    ∃ hp sc od r rm, typeBackfill env t umd x = descriptionBackfill hp sc od r rm umd x :=
  ⟨_, _, _, _, _, rfl⟩

/-- C5: for the variable map with the single entry mapping variable name
id to NonNull(ID), getVariablesJSONSchema returns a document whose
properties.id fragment is exactly the scalar fragment with type string and
description ID!, and whose required list contains id.  (The full returned
document is computed; the definitions key holds the empty map, see C4.) -/
theorem c5_id_nonnull_scalar :
    getVariablesJSONSchema [] [("id", .nonNull (.scalar "ID" none))] defaultJSONSchemaOptions =
    some { schemaUri := "https://json-schema.org/draft/2020-12/schema"
           type := "object"
           properties := [("id", .mk (some (.single "string")) none none none none none none none
             (some "ID!") none)]
           required := ["id"]
           definitions := some [] } := rfl

theorem foldl_buildStep_none (env : GQLEnv) (options : JSONSchemaOptions) :
    ∀ l : List (String × GQLType), l.foldl (buildStep env options) none = none
  | [] => rfl
  | _ :: rest => foldl_buildStep_none env options rest

theorem buildStep_defsIsSome (env : GQLEnv) (options : JSONSchemaOptions)
    (acc : JSONSchemaDoc × List String) (entry : String × GQLType)
    (doc' : JSONSchemaDoc) (marked' : List String)
    (h : buildStep env options (some acc) entry = some (doc', marked')) :
    doc'.definitions.isSome = true := by
  obtain ⟨doc0, s0⟩ := acc
  simp only [buildStep, bind, Option.bind] at h
  cases hgo : getJSONSchemaFromGraphQLType env (initialFuel env s0 entry.2) entry.2 options
      false s0 with
  | none => rw [hgo] at h; exact Option.noConfusion h
  | some out =>
    rw [hgo] at h
    obtain ⟨res, m'⟩ := out
    simp only [pure] at h
    injection h with h'
    injection h' with h1 h2
    rw [← h1]
    rfl

theorem foldl_buildStep_defsIsSome (env : GQLEnv) (options : JSONSchemaOptions) :
    ∀ (l : List (String × GQLType)) (acc : JSONSchemaDoc × List String)
      (doc : JSONSchemaDoc) (s : List String),
      acc.1.definitions.isSome = true →
      l.foldl (buildStep env options) (some acc) = some (doc, s) →
      doc.definitions.isSome = true := by
  intro l
  induction l with
  | nil =>
    intro acc doc s h0 h
    injection h with h'
    rw [h'] at h0
    exact h0
  | cons e rest ih =>
    intro acc doc s h0 h
    simp only [List.foldl_cons] at h
    cases hstep : buildStep env options (some acc) e with
    | none =>
      rw [hstep, foldl_buildStep_none] at h
      exact Option.noConfusion h
    | some acc1 =>
      rw [hstep] at h
      exact ih acc1 doc s
        (buildStep_defsIsSome env options acc e acc1.1 acc1.2 (by rw [hstep])) h

/-- C4 (amended): the definitions key of the returned document is present
if and only if the variable map itself is non-empty: each loop iteration
unconditionally reassigns the definitions key (the definitions object
returned by the synthesizer is always truthy, even when empty), so a
variable map that registers no named definition still yields an empty (but
present) definitions object as soon as it has at least one entry. -/
theorem c4_definitions_key_presence (env : GQLEnv) (options : JSONSchemaOptions)
    (variableToType : List (String × GQLType)) (doc : JSONSchemaDoc)
    (h : getVariablesJSONSchema env variableToType options = some doc) :
    doc.definitions.isSome = true ↔ variableToType ≠ [] := by
  unfold getVariablesJSONSchema buildVariablesJSONSchema at h
  cases variableToType with
  | nil =>
    simp only [List.foldl_nil, Option.map_some'] at h
    injection h with h'
    rw [← h']
    simp [initialJSONSchemaDoc]
  | cons e rest =>
    constructor
    · intro _
      exact List.cons_ne_nil e rest
    · intro _
      simp only [List.foldl_cons] at h
      cases hstep : buildStep env options (some (initialJSONSchemaDoc, [])) e with
      | none =>
        rw [hstep, foldl_buildStep_none] at h
        exact Option.noConfusion h
      | some acc1 =>
        rw [hstep] at h
        cases hrest : rest.foldl (buildStep env options) (some acc1) with
        | none => rw [hrest] at h; exact Option.noConfusion h
        | some out =>
          rw [hrest] at h
          obtain ⟨docF, sF⟩ := out
          simp only [Option.map_some'] at h
          injection h with h'
          rw [← h']
          exact foldl_buildStep_defsIsSome env options rest acc1 docF sF
            (buildStep_defsIsSome env options _ e acc1.1 acc1.2 (by rw [hstep])) hrest

/-- C4 witness: the amended theorem applied to the concrete one-variable
map sending id to NonNull(ID). -/
theorem c4_definitions_key_presence_witness :
    ({ schemaUri := "https://json-schema.org/draft/2020-12/schema"
       type := "object"
       properties := [("id", .mk (some (.single "string")) none none none none none none none
         (some "ID!") none)]
       required := ["id"]
       definitions := some [] : JSONSchemaDoc }).definitions.isSome = true ↔
      ([("id", GQLType.nonNull (.scalar "ID" none))] : List (String × GQLType)) ≠ [] :=
  c4_definitions_key_presence [] defaultJSONSchemaOptions
    [("id", GQLType.nonNull (.scalar "ID" none))] _ rfl

/-- C4 counterexample: for the one-variable map sending id to NonNull(ID)
no named definition is registered, yet the returned document does carry a
definitions key (holding the empty map), so the claim that the key is
absent whenever no definition is registered is false. -/
theorem c4_counterexample :
    ¬ (∀ doc, getVariablesJSONSchema [] [("id", .nonNull (.scalar "ID" none))]
        defaultJSONSchemaOptions = some doc → doc.definitions = none) := by
  intro h
  have h2 := h _ rfl
  exact absurd (congrArg Option.isSome h2) (by decide)

theorem typeBackfill_type (env : GQLEnv) (t : GQLType) (umd : Bool) (x : JSONSchema) :
    (typeBackfill env t umd x).type = x.type := by
  obtain ⟨hp, sc, od, r, rm, h⟩ := typeBackfill_eq_backfill env t umd x
  rw [h, descriptionBackfill_type]

theorem typeBackfill_enum (env : GQLEnv) (t : GQLType) (umd : Bool) (x : JSONSchema) :
    (typeBackfill env t umd x).enum = x.enum := by
  obtain ⟨hp, sc, od, r, rm, h⟩ := typeBackfill_eq_backfill env t umd x
  rw [h, descriptionBackfill_enum]

theorem typeBackfill_default (env : GQLEnv) (t : GQLType) (umd : Bool) (x : JSONSchema) :
    (typeBackfill env t umd x).default = x.default := by
  obtain ⟨hp, sc, od, r, rm, h⟩ := typeBackfill_eq_backfill env t umd x
  rw [h, descriptionBackfill_default]

theorem typeBackfill_items (env : GQLEnv) (t : GQLType) (umd : Bool) (x : JSONSchema) :
    (typeBackfill env t umd x).items = x.items := by
  obtain ⟨hp, sc, od, r, rm, h⟩ := typeBackfill_eq_backfill env t umd x
  rw [h, descriptionBackfill_items]

theorem typeBackfill_ref (env : GQLEnv) (t : GQLType) (umd : Bool) (x : JSONSchema) :
    (typeBackfill env t umd x).ref = x.ref := by
  obtain ⟨hp, sc, od, r, rm, h⟩ := typeBackfill_eq_backfill env t umd x
  rw [h, descriptionBackfill_ref]

theorem typeBackfill_oneOf (env : GQLEnv) (t : GQLType) (umd : Bool) (x : JSONSchema) :
    (typeBackfill env t umd x).oneOf = x.oneOf := by
  obtain ⟨hp, sc, od, r, rm, h⟩ := typeBackfill_eq_backfill env t umd x
  rw [h, descriptionBackfill_oneOf]

theorem typeBackfill_properties (env : GQLEnv) (t : GQLType) (umd : Bool) (x : JSONSchema) :
    (typeBackfill env t umd x).properties = x.properties := by
  obtain ⟨hp, sc, od, r, rm, h⟩ := typeBackfill_eq_backfill env t umd x
  rw [h, descriptionBackfill_properties]

theorem typeBackfill_required (env : GQLEnv) (t : GQLType) (umd : Bool) (x : JSONSchema) :
    (typeBackfill env t umd x).required = x.required := by
  obtain ⟨hp, sc, od, r, rm, h⟩ := typeBackfill_eq_backfill env t umd x
  rw [h, descriptionBackfill_required]

theorem refsIn_typeBackfill (env : GQLEnv) (t : GQLType) (umd : Bool) (x : JSONSchema) :
    refsIn (typeBackfill env t umd x) = refsIn x := by
  obtain ⟨hp, sc, od, r, rm, h⟩ := typeBackfill_eq_backfill env t umd x
  rw [h, refsIn_descriptionBackfill]

/-- The environment defining the directly self-referential input-object
type Filter with the single nullable field self of type Filter. -/
def c6Env : GQLEnv :=
  [("Filter",
    { description := none
      fields := [{ name := "self", type := .inputObject "Filter", description := none,
                   defaultValue := none }] })]

/-- C6 (amended): for the self-referential type Filter, synthesizing a
variable of type Filter produces exactly one definitions.Filter entry; its
self property carries the oneOf alternatives [ref to definitions/Filter,
the null schema] and, in addition to what the claim lists, a description
member holding the rendered field type Filter.  The whole returned
document is computed exactly. -/
theorem c6_recursive_filter_definition :
    getVariablesJSONSchema c6Env [("f", .inputObject "Filter")] defaultJSONSchemaOptions =
    some { schemaUri := "https://json-schema.org/draft/2020-12/schema"
           type := "object"
           properties := [("f", .mk none none none none none
             (some [JSONSchema.empty.withRef (some "#/definitions/Filter"), nullSchema])
             none none (some "Filter") none)]
           required := []
           definitions := some [("Filter", .mk (some (.single "object")) none none none none none
             (some [("self", .mk none none none none none
               (some [JSONSchema.empty.withRef (some "#/definitions/Filter"), nullSchema])
               none none (some "Filter") none)])
             (some []) (some "Filter") none)] } := rfl

/-- C6 counterexample: the self property of the registered Filter
definition is not literally the bare oneOf object the claim gives; it also
carries a description member, so the claimed equality fails. -/
theorem c6_counterexample :
    ¬ (∀ doc, getVariablesJSONSchema c6Env [("f", .inputObject "Filter")]
          defaultJSONSchemaOptions = some doc →
        (doc.definitions.getD []).map (fun kv => lookupKV (kv.2.properties.getD []) "self") =
          [some (JSONSchema.empty.withOneOf
            (some [JSONSchema.empty.withRef (some "#/definitions/Filter"), nullSchema]))]) := by
  intro h
  have h2 := h _ rfl
  exact absurd
    (congrArg (List.map (fun p : Option JSONSchema => p.map JSONSchema.description)) h2)
    (by decide)

theorem descriptionBackfill_description_of_blank (hp sc : Bool) (od : Option String)
    (r rm : String) (umd : Bool) (x : JSONSchema)
    (hc : (hp && !sc && strTruthy od && !(strTruthy x.description)) = false)
    (hd : strTruthy x.description = false) :
    (descriptionBackfill hp sc od r rm umd x).description = some r := by
  unfold descriptionBackfill
  rw [if_neg (by simp [hc]), if_neg (by simp [hd])]
  cases umd <;> simp

/-- C7 (amended): a custom scalar with no entry in the built-in scalar map
and no registered override, synthesized in a nullable context, yields a
fragment whose type member is exactly the tag list
[string, number, boolean, integer, null]; in addition to what the claim
lists, the fragment carries the backfilled description (the rendered type
name).  Nothing is registered and the marker is unchanged. -/
theorem c7_custom_scalar_default (env : GQLEnv) (options : JSONSchemaOptions)
    (name : String) (d : Option String) (fuel : Nat) (marked : List String)
    (hbuiltin : lookupKV scalarTypesMap name = none)
    (hcustom : lookupKV options.customScalarSchemas name = none) :
    ∃ res, getJSONSchemaFromGraphQLType env (fuel + 1) (.scalar name d) options false marked =
        some (res, marked) ∧
      res.definition.type = some (.multi ["string", "number", "boolean", "integer", "null"]) ∧
      res.definition.description = some name ∧
      res.required = false ∧ res.definitions = [] := by
  have hx : scalarCoreFragment options name false =
      broadenWithNull (JSONSchema.empty.withType
        (some (.multi ["string", "number", "boolean", "integer"]))) := by
    simp only [scalarCoreFragment, hbuiltin, hcustom]
    rfl
  have hb : backfillIfNullable env (.scalar name d) options false
      (scalarCoreFragment options name false) =
      typeBackfill env (.scalar name d) options.useMarkdownDescription
        (scalarCoreFragment options name false) := rfl
  have hd2 : strTruthy (scalarCoreFragment options name false).description = false := by
    rw [hx]; rfl
  have hdesc : (typeBackfill env (.scalar name d) options.useMarkdownDescription
      (scalarCoreFragment options name false)).description =
      some (renderTypeToString (.scalar name d) false) := by
    show (descriptionBackfill (gqlHasDescriptionProp (.scalar name d))
      (gqlIsScalarType (.scalar name d)) (gqlDescription env (.scalar name d))
      (renderTypeToString (.scalar name d) false) (renderTypeToString (.scalar name d) true)
      options.useMarkdownDescription (scalarCoreFragment options name false)).description = _
    exact descriptionBackfill_description_of_blank _ _ _ _ _ _ _ rfl hd2
  refine ⟨_, rfl, ?_, ?_, rfl, rfl⟩
  · rw [hb, typeBackfill_type, hx]
    rfl
  · rw [hb, hdesc, renderTypeToString_plain]
    rfl

/-- C7 witness: the amended theorem at the concrete custom scalar JSON
with no override. -/
theorem c7_custom_scalar_default_witness :
    ∃ res, getJSONSchemaFromGraphQLType [] 1 (.scalar "JSON" none) defaultJSONSchemaOptions
        false [] = some (res, []) ∧
      res.definition.type = some (.multi ["string", "number", "boolean", "integer", "null"]) ∧
      res.definition.description = some "JSON" ∧
      res.required = false ∧ res.definitions = [] :=
  c7_custom_scalar_default [] defaultJSONSchemaOptions "JSON" none 0 [] rfl rfl

/-- C7 counterexample: the fragment synthesized for a nullable occurrence
of the custom scalar JSON is not literally the bare object with only the
type member the claim gives; the backfill also attaches a description. -/
theorem c7_counterexample :
    ¬ ((getJSONSchemaFromGraphQLType [] 1 (.scalar "JSON" none) defaultJSONSchemaOptions
          false []).map (fun p => p.1.definition) =
        some (JSONSchema.empty.withType
          (some (.multi ["string", "number", "boolean", "integer", "null"])))) := by
  intro h
  exact absurd (congrArg (Option.map JSONSchema.description) h) (by decide)

/-- C10 (amended): when synthesizing a List type in any nullability
context, the items schema is determined by the inner fragment as follows:
if the inner fragment carries a truthy (non-empty) ref string, items is
exactly the single-member ref object; otherwise, if the inner fragment
carries a oneOf member (even an empty list), items is exactly the
single-member oneOf object; otherwise items is the inner fragment itself.
In the first two cases any description, markdownDescription or default of
the inner fragment is therefore absent from the items schema. -/
theorem c10_list_items_extraction (env : GQLEnv) (options : JSONSchemaOptions) (fuel : Nat)
    (inner : GQLType) (isNonNull : Bool) (marked marked' : List String)
    (innerRes : DefinitionResult)
    (h : getJSONSchemaFromGraphQLType env fuel inner options false marked =
      some (innerRes, marked')) :
    ∃ res, getJSONSchemaFromGraphQLType env (fuel + 1) (.list inner) options isNonNull marked =
        some (res, marked') ∧
      res.definition.items = some
        (if strTruthy innerRes.definition.ref then JSONSchema.empty.withRef innerRes.definition.ref
         else if innerRes.definition.oneOf.isSome then
           JSONSchema.empty.withOneOf innerRes.definition.oneOf
         else innerRes.definition) := by
  simp only [getJSONSchemaFromGraphQLType, h, Option.map_some']
  refine ⟨_, rfl, ?_⟩
  have hbf : ∀ x, (backfillIfNullable env (.list inner) options isNonNull x).items = x.items := by
    intro x
    cases isNonNull <;> simp [backfillIfNullable, typeBackfill_items]
  rw [hbf]
  by_cases h1 : strTruthy innerRes.definition.ref = true <;>
    by_cases h2 : innerRes.definition.oneOf.isSome = true <;>
      simp [listFragment, h1, h2]

/-- C10 witness: the amended theorem at a concrete nullable Int list; the
inner fragment has neither ref nor oneOf, so items is the inner fragment. -/
theorem c10_list_items_extraction_witness :
    ∃ res, getJSONSchemaFromGraphQLType [] 2 (.list (.scalar "Int" none))
        defaultJSONSchemaOptions false [] = some (res, []) ∧
      res.definition.items = some (JSONSchema.mk (some (.multi ["integer", "null"]))
        none none none none none none none (some "Int") none) :=
  c10_list_items_extraction [] defaultJSONSchemaOptions 1 (.scalar "Int" none) false [] []
    ⟨.mk (some (.multi ["integer", "null"])) none none none none none none none (some "Int") none,
      false, []⟩ rfl

/-- C10 counterexample: a registered custom scalar override whose ref
member is the empty string is falsy for the truthiness test on line 199, so
the inner fragment does carry a ref, yet the items schema is the whole
inner fragment including its backfilled description, not the single-member
ref object the claim requires. -/
theorem c10_counterexample :
    ¬ (∀ innerRes res marked1 marked2,
        getJSONSchemaFromGraphQLType [] 2 (.nonNull (.scalar "X" none))
            { useMarkdownDescription := false
              customScalarSchemas := [("X", JSONSchema.empty.withRef (some ""))] } false [] =
          some (innerRes, marked1) →
        getJSONSchemaFromGraphQLType [] 3 (.list (.nonNull (.scalar "X" none)))
            { useMarkdownDescription := false
              customScalarSchemas := [("X", JSONSchema.empty.withRef (some ""))] } false [] =
          some (res, marked2) →
        innerRes.definition.ref.isSome = true →
        res.definition.items = some (JSONSchema.empty.withRef innerRes.definition.ref)) := by
  intro h
  have h2 := h _ _ _ _ rfl rfl (by decide)
  exact absurd (congrArg (Option.map JSONSchema.description) h2) (by decide)


theorem goFuel_succ_enum (env : GQLEnv) (options : JSONSchemaOptions) (fuel : Nat)
    (name : String) (values : List String) (d : Option String) (nn : Bool)
    (marked : List String) :
    getJSONSchemaFromGraphQLType env (fuel + 1) (.enum name values d) options nn marked =
      some (⟨backfillIfNullable env (.enum name values d) options nn
        (enumCoreFragment values nn), false, []⟩, marked) := rfl

theorem goFuel_succ_scalar (env : GQLEnv) (options : JSONSchemaOptions) (fuel : Nat)
    (name : String) (d : Option String) (nn : Bool) (marked : List String) :
    getJSONSchemaFromGraphQLType env (fuel + 1) (.scalar name d) options nn marked =
      some (⟨backfillIfNullable env (.scalar name d) options nn
        (scalarCoreFragment options name nn), false, []⟩, marked) := rfl

theorem goFuel_succ_list (env : GQLEnv) (options : JSONSchemaOptions) (fuel : Nat)
    (ofType : GQLType) (nn : Bool) (marked : List String) :
    getJSONSchemaFromGraphQLType env (fuel + 1) (.list ofType) options nn marked =
      (getJSONSchemaFromGraphQLType env fuel ofType options false marked).map (fun p =>
        (⟨backfillIfNullable env (.list ofType) options nn (listFragment nn p.1.definition),
          false, mergeDefs [] p.1.definitions⟩, p.2)) := by
  cases hin : getJSONSchemaFromGraphQLType env fuel ofType options false marked with
  | none => simp only [getJSONSchemaFromGraphQLType, hin, Option.map_none']
  | some p =>
    obtain ⟨innerRes, marked'⟩ := p
    simp only [getJSONSchemaFromGraphQLType, hin, Option.map_some']

theorem goFuel_succ_nonNull (env : GQLEnv) (options : JSONSchemaOptions) (fuel : Nat)
    (ofType : GQLType) (nn : Bool) (marked : List String) :
    getJSONSchemaFromGraphQLType env (fuel + 1) (.nonNull ofType) options nn marked =
      (getJSONSchemaFromGraphQLType env fuel ofType options true marked).map (fun p =>
        (⟨backfillIfNullable env (.nonNull ofType) options nn p.1.definition,
          true, mergeDefs [] p.1.definitions⟩, p.2)) := by
  cases hin : getJSONSchemaFromGraphQLType env fuel ofType options true marked with
  | none => simp only [getJSONSchemaFromGraphQLType, hin, Option.map_none']
  | some p =>
    obtain ⟨innerRes, marked'⟩ := p
    simp only [getJSONSchemaFromGraphQLType, hin, Option.map_some']

theorem goFuel_succ_inputObject_marked (env : GQLEnv) (options : JSONSchemaOptions) (fuel : Nat)
    (name : String) (nn : Bool) (marked : List String)
    (h : marked.contains name = true) :
    getJSONSchemaFromGraphQLType env (fuel + 1) (.inputObject name) options nn marked =
      some (⟨backfillIfNullable env (.inputObject name) options nn (inputObjectFragment name nn),
        false, []⟩, marked) := by
  have hm : markerMark marked name = (false, marked) := by unfold markerMark; rw [h]; rfl
  simp only [getJSONSchemaFromGraphQLType, hm]
  rfl

theorem goFuel_succ_inputObject_fresh (env : GQLEnv) (options : JSONSchemaOptions) (fuel : Nat)
    (name : String) (nn : Bool) (marked : List String)
    (h : marked.contains name = false) :
    getJSONSchemaFromGraphQLType env (fuel + 1) (.inputObject name) options nn marked =
      (processFields (fun ty n st => getJSONSchemaFromGraphQLType env fuel ty options n st)
          options.useMarkdownDescription (objFields env name)
          (initialFieldDef env options name, [], name :: marked)).map (fun out =>
        (⟨backfillIfNullable env (.inputObject name) options nn (inputObjectFragment name nn),
          false, insertKV out.2.1 name out.1⟩, out.2.2)) := by
  have hm : markerMark marked name = (true, name :: marked) := by unfold markerMark; rw [h]; rfl
  cases hpf : processFields (fun ty n st => getJSONSchemaFromGraphQLType env fuel ty options n st)
      options.useMarkdownDescription (objFields env name)
      (initialFieldDef env options name, [], name :: marked) with
  | none =>
    simp only [getJSONSchemaFromGraphQLType, hm, hpf]
    rfl
  | some out =>
    obtain ⟨fd, defs, m2⟩ := out
    simp only [getJSONSchemaFromGraphQLType, hm, hpf]
    rfl

theorem processFields_cons
    (go : GQLType → Bool → List String → Option (DefinitionResult × List String))
    (umd : Bool) (field : GQLField) (rest : List GQLField) (fieldDef : JSONSchema)
    (definitions : List (String × JSONSchema)) (marked : List String) :
    processFields go umd (field :: rest) (fieldDef, definitions, marked) =
      (go field.type false marked).bind (fun p =>
        processFields go umd rest
          (fieldStepFieldDef umd field p.1 fieldDef,
           mergeDefs definitions p.1.definitions, p.2)) := by
  cases hgo : go field.type false marked with
  | none => rw [processFields, hgo]; rfl
  | some p =>
    obtain ⟨tres, marked'⟩ := p
    rw [processFields, hgo]
    rfl

theorem processFields_mono
    (go : GQLType → Bool → List String → Option (DefinitionResult × List String))
    (hgo : ∀ ty nn st res st', go ty nn st = some (res, st') → ∀ x, x ∈ st → x ∈ st')
    (umd : Bool) :
    ∀ (fields : List GQLField) (acc out : JSONSchema × List (String × JSONSchema) × List String),
      processFields go umd fields acc = some out → ∀ x, x ∈ acc.2.2 → x ∈ out.2.2 := by
  intro fields
  induction fields with
  | nil =>
    intro acc out h x hx
    injection h with h'
    rw [← h']
    exact hx
  | cons field rest ih =>
    intro acc out h x hx
    obtain ⟨fd, defs, marked⟩ := acc
    rw [processFields_cons] at h
    cases hgo1 : go field.type false marked with
    | none => rw [hgo1] at h; exact Option.noConfusion h
    | some p =>
      obtain ⟨tres, marked'⟩ := p
      rw [hgo1] at h
      exact ih _ out h x (hgo _ _ _ _ _ hgo1 x hx)

theorem getJSONSchemaFromGraphQLType_mono (env : GQLEnv) (options : JSONSchemaOptions) :
    ∀ (fuel : Nat) (t : GQLType) (nn : Bool) (marked : List String)
      (res : DefinitionResult) (marked' : List String),
      getJSONSchemaFromGraphQLType env fuel t options nn marked = some (res, marked') →
      ∀ x, x ∈ marked → x ∈ marked' := by
  intro fuel
  induction fuel with
  | zero => intro t nn marked res marked' h; exact Option.noConfusion h
  | succ fuel ih =>
    intro t nn marked res marked' h x hx
    cases t with
    | scalar name d =>
      rw [goFuel_succ_scalar] at h
      injection h with h'
      injection h' with h1 h2
      rw [← h2]
      exact hx
    | enum name values d =>
      rw [goFuel_succ_enum] at h
      injection h with h'
      injection h' with h1 h2
      rw [← h2]
      exact hx
    | list ofType =>
      rw [goFuel_succ_list] at h
      cases hin : getJSONSchemaFromGraphQLType env fuel ofType options false marked with
      | none => rw [hin] at h; exact Option.noConfusion h
      | some p =>
        obtain ⟨ir, m1⟩ := p
        rw [hin] at h
        simp only [Option.map_some'] at h
        injection h with h'
        injection h' with h1 h2
        rw [← h2]
        exact ih ofType false marked ir m1 hin x hx
    | nonNull ofType =>
      rw [goFuel_succ_nonNull] at h
      cases hin : getJSONSchemaFromGraphQLType env fuel ofType options true marked with
      | none => rw [hin] at h; exact Option.noConfusion h
      | some p =>
        obtain ⟨ir, m1⟩ := p
        rw [hin] at h
        simp only [Option.map_some'] at h
        injection h with h'
        injection h' with h1 h2
        rw [← h2]
        exact ih ofType true marked ir m1 hin x hx
    | inputObject name =>
      cases hc : marked.contains name with
      | true =>
        rw [goFuel_succ_inputObject_marked env options fuel name nn marked hc] at h
        injection h with h'
        injection h' with h1 h2
        rw [← h2]
        exact hx
      | false =>
        rw [goFuel_succ_inputObject_fresh env options fuel name nn marked hc] at h
        cases hpf : processFields
            (fun ty n st => getJSONSchemaFromGraphQLType env fuel ty options n st)
            options.useMarkdownDescription (objFields env name)
            (initialFieldDef env options name, [], name :: marked) with
        | none => rw [hpf] at h; exact Option.noConfusion h
        | some out =>
          rw [hpf] at h
          simp only [Option.map_some'] at h
          injection h with h'
          injection h' with h1 h2
          rw [← h2]
          exact processFields_mono _ (fun ty n st r st' hh => ih ty n st r st' hh) _ _ _ _ hpf x
            (List.mem_cons_of_mem _ hx)

theorem length_filter_mono (p q : String → Bool) (himp : ∀ x, q x = true → p x = true) :
    ∀ l : List String, (l.filter q).length ≤ (l.filter p).length := by
  intro l
  induction l with
  | nil => exact Nat.le_refl 0
  | cons x xs ih =>
    cases hq : q x with
    | true =>
      have hp := himp x hq
      simp only [List.filter_cons, hq, hp, if_pos, List.length_cons]
      exact Nat.succ_le_succ ih
    | false =>
      cases hp : p x with
      | true =>
        simp only [List.filter_cons, hq, hp, List.length_cons]
        simp only [Bool.false_eq_true, if_false, if_pos, List.length_cons]
        exact Nat.le_trans ih (Nat.le_succ _)
      | false =>
        simp only [List.filter_cons, hq, hp, Bool.false_eq_true, if_false]
        exact ih

theorem length_filter_lt (p q : String → Bool) (himp : ∀ x, q x = true → p x = true)
    (a : String) (hpa : p a = true) (hqa : q a = false) :
    ∀ l : List String, a ∈ l → (l.filter q).length < (l.filter p).length := by
  intro l
  induction l with
  | nil => intro h; exact absurd h (List.not_mem_nil a)
  | cons x xs ih =>
    intro hmem
    rcases List.mem_cons.mp hmem with heq | htail
    · subst heq
      simp only [List.filter_cons, hpa, hqa, if_pos, Bool.false_eq_true, if_false,
        List.length_cons]
      exact Nat.lt_succ_of_le (length_filter_mono p q himp xs)
    · cases hq : q x with
      | true =>
        have hp := himp x hq
        simp only [List.filter_cons, hq, hp, if_pos, List.length_cons]
        exact Nat.succ_lt_succ (ih htail)
      | false =>
        cases hp : p x with
        | true =>
          simp only [List.filter_cons, hq, hp, if_pos, Bool.false_eq_true, if_false,
            List.length_cons]
          exact Nat.lt_succ_of_lt (ih htail)
        | false =>
          simp only [List.filter_cons, hq, hp, Bool.false_eq_true, if_false]
          exact ih htail

theorem unmarkedCount_mono (env : GQLEnv) (s s' : List String)
    (hsub : ∀ x, x ∈ s → x ∈ s') :
    unmarkedCount env s' ≤ unmarkedCount env s := by
  apply length_filter_mono
  intro x hx
  cases hc : s.contains x with
  | false => simp
  | true =>
    exfalso
    have hmem : x ∈ s := by simpa using hc
    have : s'.contains x = true := by simpa using hsub x hmem
    rw [this] at hx
    simp at hx

theorem unmarkedCount_strict (env : GQLEnv) (s s' : List String) (name : String)
    (hname : name ∈ env.map Prod.fst) (hnot : s.contains name = false)
    (hmem : name ∈ s') (hsub : ∀ x, x ∈ s → x ∈ s') :
    unmarkedCount env s' < unmarkedCount env s := by
  apply length_filter_lt _ _ ?_ name ?_ ?_ _ hname
  · intro x hx
    cases hc : s.contains x with
    | false => simp
    | true =>
      exfalso
      have hm : x ∈ s := by simpa using hc
      have : s'.contains x = true := by simpa using hsub x hm
      rw [this] at hx
      simp at hx
  · simpa using hnot
  · simpa using hmem

theorem fieldsWeight_le (f : GQLField) :
    ∀ fields : List GQLField, f ∈ fields → tsize f.type + 1 ≤ fieldsWeight fields := by
  intro fields
  induction fields with
  | nil => intro h; exact absurd h (List.not_mem_nil f)
  | cons g rest ih =>
    intro h
    rcases List.mem_cons.mp h with heq | htail
    · subst heq
      simp only [fieldsWeight]
      omega
    · have := ih htail
      simp only [fieldsWeight]
      omega

theorem envWeight_pos : ∀ env : GQLEnv, 1 ≤ envWeight env
  | [] => Nat.le_refl 1
  | e :: rest => by
    have := envWeight_pos rest
    simp only [envWeight]
    omega

theorem field_tsize_le_envWeight (name : String) (entry : InputObjectDef) (f : GQLField) :
    ∀ env : GQLEnv, lookupKV env name = some entry → f ∈ entry.fields →
      tsize f.type + 1 ≤ envWeight env := by
  intro env
  induction env with
  | nil => intro h _; exact Option.noConfusion h
  | cons kv rest ih =>
    intro hlk hf
    simp only [lookupKV] at hlk
    by_cases hk : (kv.1 == name) = true
    · rw [if_pos hk] at hlk
      injection hlk with h'
      have := fieldsWeight_le f entry.fields hf
      rw [← h'] at this
      simp only [envWeight]
      omega
    · rw [if_neg hk] at hlk
      have := ih hlk hf
      simp only [envWeight]
      omega

theorem lookupKV_key_mem (name : String) (entry : InputObjectDef) :
    ∀ env : GQLEnv, lookupKV env name = some entry → name ∈ env.map Prod.fst := by
  intro env
  induction env with
  | nil => intro h; exact Option.noConfusion h
  | cons kv rest ih =>
    intro hlk
    simp only [lookupKV] at hlk
    by_cases hk : (kv.1 == name) = true
    · have heq : kv.1 = name := by simpa using hk
      simp [heq]
    · rw [if_neg hk] at hlk
      simp only [List.map_cons, List.mem_cons]
      exact Or.inr (ih hlk)

theorem processFields_isSome (env : GQLEnv) (options : JSONSchemaOptions) (fuel : Nat)
    (base : List String)
    (hgo : ∀ t nn marked, tsize t + unmarkedCount env marked * (envWeight env + 1) < fuel →
      (getJSONSchemaFromGraphQLType env fuel t options nn marked).isSome = true)
    (hfuel : envWeight env + unmarkedCount env base * (envWeight env + 1) ≤ fuel) :
    ∀ (fields : List GQLField) (fd : JSONSchema) (defs : List (String × JSONSchema))
      (marked : List String),
      (∀ f ∈ fields, tsize f.type + 1 ≤ envWeight env) →
      (∀ x, x ∈ base → x ∈ marked) →
      (processFields (fun ty nn st => getJSONSchemaFromGraphQLType env fuel ty options nn st)
        options.useMarkdownDescription fields (fd, defs, marked)).isSome = true := by
  intro fields
  induction fields with
  | nil =>
    intro fd defs marked _ _
    rw [processFields]
    rfl
  | cons f rest ih =>
    intro fd defs marked hw hsup
    rw [processFields_cons]
    have hbound : tsize f.type + unmarkedCount env marked * (envWeight env + 1) < fuel := by
      have h1 : tsize f.type + 1 ≤ envWeight env := hw f (List.mem_cons_self f rest)
      have h2 : unmarkedCount env marked ≤ unmarkedCount env base :=
        unmarkedCount_mono env base marked hsup
      have h3 : unmarkedCount env marked * (envWeight env + 1) ≤
          unmarkedCount env base * (envWeight env + 1) :=
        Nat.mul_le_mul_right _ h2
      omega
    have hcall := hgo f.type false marked hbound
    cases hres : getJSONSchemaFromGraphQLType env fuel f.type options false marked with
    | none => rw [hres] at hcall; exact absurd hcall (by simp)
    | some p =>
      obtain ⟨tres, marked'⟩ := p
      have hmono : ∀ x, x ∈ marked → x ∈ marked' :=
        getJSONSchemaFromGraphQLType_mono env options fuel f.type false marked tres marked' hres
      exact ih _ _ _ (fun g hg => hw g (List.mem_cons_of_mem f hg))
        (fun x hx => hmono x (hsup x hx))

theorem getJSONSchemaFromGraphQLType_isSome (env : GQLEnv) (options : JSONSchemaOptions) :
    ∀ (fuel : Nat) (t : GQLType) (nn : Bool) (marked : List String),
      tsize t + unmarkedCount env marked * (envWeight env + 1) < fuel →
      (getJSONSchemaFromGraphQLType env fuel t options nn marked).isSome = true := by
  intro fuel
  induction fuel with
  | zero => intro t nn marked h; exact absurd h (Nat.not_lt_zero _)
  | succ fuel ih =>
    intro t nn marked h
    cases t with
    | scalar name d => rw [goFuel_succ_scalar]; rfl
    | enum name values d => rw [goFuel_succ_enum]; rfl
    | list ofType =>
      rw [goFuel_succ_list]
      have hin := ih ofType false marked (by simp only [tsize] at h; omega)
      cases hres : getJSONSchemaFromGraphQLType env fuel ofType options false marked with
      | none => rw [hres] at hin; exact absurd hin (by simp)
      | some p => rfl
    | nonNull ofType =>
      rw [goFuel_succ_nonNull]
      have hin := ih ofType true marked (by simp only [tsize] at h; omega)
      cases hres : getJSONSchemaFromGraphQLType env fuel ofType options true marked with
      | none => rw [hres] at hin; exact absurd hin (by simp)
      | some p => rfl
    | inputObject name =>
      cases hc : marked.contains name with
      | true => rw [goFuel_succ_inputObject_marked env options fuel name nn marked hc]; rfl
      | false =>
        rw [goFuel_succ_inputObject_fresh env options fuel name nn marked hc]
        cases hlk : lookupKV env name with
        | none =>
          have hempty : objFields env name = [] := by simp [objFields, hlk]
          rw [hempty, processFields]
          rfl
        | some entry =>
          have hfields : objFields env name = entry.fields := by simp [objFields, hlk]
          have hpf := processFields_isSome env options fuel (name :: marked)
            (fun t' nn' marked' hb => ih t' nn' marked' hb) ?_ entry.fields
            (initialFieldDef env options name) [] (name :: marked)
            (fun f hf => field_tsize_le_envWeight name entry f env hlk hf)
            (fun x hx => hx)
          · rw [hfields]
            cases hres : processFields
                (fun ty n st => getJSONSchemaFromGraphQLType env fuel ty options n st)
                options.useMarkdownDescription entry.fields
                (initialFieldDef env options name, [], name :: marked) with
            | none => rw [hres] at hpf; exact absurd hpf (by simp)
            | some out => rfl
          · -- envWeight env + unmarkedCount env (name :: marked) * (envWeight env + 1) ≤ fuel
            have hdec : unmarkedCount env (name :: marked) < unmarkedCount env marked :=
              unmarkedCount_strict env marked (name :: marked) name
                (lookupKV_key_mem name entry env hlk) hc (List.mem_cons_self name marked)
                (fun x hx => List.mem_cons_of_mem name hx)
            have hmul : (unmarkedCount env (name :: marked) + 1) * (envWeight env + 1) ≤
                unmarkedCount env marked * (envWeight env + 1) :=
              Nat.mul_le_mul_right _ hdec
            have hexp : (unmarkedCount env (name :: marked) + 1) * (envWeight env + 1) =
                unmarkedCount env (name :: marked) * (envWeight env + 1) + (envWeight env + 1) :=
              Nat.succ_mul _ _
            simp only [tsize] at h
            omega

theorem buildStep_isSome (env : GQLEnv) (options : JSONSchemaOptions)
    (acc : JSONSchemaDoc × List String) (entry : String × GQLType) :
    (buildStep env options (some acc) entry).isSome = true := by
  obtain ⟨doc, marked⟩ := acc
  have h := getJSONSchemaFromGraphQLType_isSome env options (initialFuel env marked entry.2)
    entry.2 false marked (by simp only [initialFuel]; omega)
  cases hgo : getJSONSchemaFromGraphQLType env (initialFuel env marked entry.2) entry.2 options
      false marked with
  | none => rw [hgo] at h; exact absurd h (by simp)
  | some out =>
    obtain ⟨res, marked'⟩ := out
    simp only [buildStep, bind, Option.bind, hgo]
    rfl

theorem foldl_buildStep_isSome (env : GQLEnv) (options : JSONSchemaOptions) :
    ∀ (varMap : List (String × GQLType)) (acc : JSONSchemaDoc × List String),
      ((varMap.foldl (buildStep env options) (some acc)).isSome) = true := by
  intro varMap
  induction varMap with
  | nil => intro acc; rfl
  | cons e rest ih =>
    intro acc
    rw [List.foldl_cons]
    have hs := buildStep_isSome env options acc e
    cases hstep : buildStep env options (some acc) e with
    | none => rw [hstep] at hs; exact absurd hs (by simp)
    | some acc1 => exact ih acc1

/-- C9: the synthesizer terminates on every type-reference graph,
including cyclic and mutually recursive input-object graphs: the
top-level entry always returns a document (the fuel computed from the
marker-based bound never runs out, because once a type name is marked the
input-object branch cannot re-enter its field expansion), and once a name
is in the run-scoped marker, every further occurrence of that type
returns only the reference fragment, registers no definitions, and leaves
the marker unchanged. -/
theorem c9_termination_and_marker_short_circuit :
    (∀ (env : GQLEnv) (variableToType : List (String × GQLType)) (options : JSONSchemaOptions),
      ∃ doc, getVariablesJSONSchema env variableToType options = some doc) ∧
    (∀ (env : GQLEnv) (options : JSONSchemaOptions) (fuel : Nat) (name : String) (nn : Bool)
      (marked : List String), marked.contains name = true →
      getJSONSchemaFromGraphQLType env (fuel + 1) (.inputObject name) options nn marked =
        some (⟨backfillIfNullable env (.inputObject name) options nn
          (inputObjectFragment name nn), false, []⟩, marked)) := by
  constructor
  · intro env varMap options
    have h := foldl_buildStep_isSome env options varMap (initialJSONSchemaDoc, [])
    unfold getVariablesJSONSchema buildVariablesJSONSchema
    cases hfold : varMap.foldl (buildStep env options) (some (initialJSONSchemaDoc, [])) with
    | none => rw [hfold] at h; exact absurd h (by simp)
    | some out => exact ⟨out.1, rfl⟩
  · intro env options fuel name nn marked h
    exact goFuel_succ_inputObject_marked env options fuel name nn marked h

/-- C9 witness: the short-circuit clause applied with the name Filter
already marked, and the totality clause applied to a concrete cyclic
environment. -/
theorem c9_termination_witness :
    (∃ doc, getVariablesJSONSchema
      [("Filter", { description := none
                    fields := [{ name := "self", type := .inputObject "Filter",
                                 description := none, defaultValue := none }] })]
      [("f", .inputObject "Filter")] defaultJSONSchemaOptions = some doc) ∧
    getJSONSchemaFromGraphQLType [] 1 (.inputObject "Filter") defaultJSONSchemaOptions false
        ["Filter"] =
      some (⟨backfillIfNullable [] (.inputObject "Filter") defaultJSONSchemaOptions false
        (inputObjectFragment "Filter" false), false, []⟩, ["Filter"]) :=
  ⟨c9_termination_and_marker_short_circuit.1 _ _ _,
    c9_termination_and_marker_short_circuit.2 [] defaultJSONSchemaOptions 0 "Filter" false
      ["Filter"] rfl⟩

/-- `isNonNullType` from graphql-js: is the reference a NonNull wrapper? -/
def isNonNullType : GQLType → Bool
  | .nonNull _ => true
  | _ => false

theorem lookupKV_val_mem {α : Type} (k : String) (v : α) :
    ∀ l : List (String × α), lookupKV l k = some v → v ∈ l.map Prod.snd := by
  intro l
  induction l with
  | nil => intro h; exact Option.noConfusion h
  | cons kv rest ih =>
    intro h
    simp only [lookupKV] at h
    by_cases hk : (kv.1 == k) = true
    · rw [if_pos hk] at h
      injection h with h'
      simp [← h']
    · rw [if_neg hk] at h
      simp only [List.map_cons, List.mem_cons]
      exact Or.inr (ih h)

theorem lookupKV_pair_mem {α : Type} (k : String) (v : α) :
    ∀ l : List (String × α), lookupKV l k = some v → (k, v) ∈ l := by
  intro l
  induction l with
  | nil => intro h; exact Option.noConfusion h
  | cons kv rest ih =>
    intro h
    simp only [lookupKV] at h
    by_cases hk : (kv.1 == k) = true
    · rw [if_pos hk] at h
      injection h with h'
      have hkeq : kv.1 = k := by simpa using hk
      have : kv = (k, v) := by
        obtain ⟨k1, v1⟩ := kv
        simp only at hkeq h'
        rw [hkeq, h']
      rw [← this]
      exact List.mem_cons_self kv rest
    · rw [if_neg hk] at h
      exact List.mem_cons_of_mem kv (ih h)

theorem hasTopNullAlt_backfill (env : GQLEnv) (t : GQLType) (umd : Bool) (x : JSONSchema) :
    hasTopNullAlt (typeBackfill env t umd x) = hasTopNullAlt x := by
  unfold hasTopNullAlt isNullSchemaAlt
  rw [typeBackfill_type, typeBackfill_enum, typeBackfill_oneOf]

theorem hasTopNullAlt_backfillIfNullable (env : GQLEnv) (t : GQLType)
    (options : JSONSchemaOptions) (nn : Bool) (x : JSONSchema) :
    hasTopNullAlt (backfillIfNullable env t options nn x) = hasTopNullAlt x := by
  unfold backfillIfNullable
  cases nn with
  | true => rfl
  | false => simp only [Bool.not_false, if_pos, hasTopNullAlt_backfill]

theorem hasTopNullAlt_broadenWithNull (x : JSONSchema) :
    hasTopNullAlt (broadenWithNull x) = true := by
  obtain ⟨ty, en, de, it, re, oo, pr, rq, ds, md⟩ := x
  cases ty with
  | some tag =>
    cases tag with
    | multi tags => simp [broadenWithNull, hasTopNullAlt]
    | single tag =>
      by_cases he : (tag == "") = true
      · cases oo with
        | some alts =>
          simp [broadenWithNull, he, broadenOneOfOrWrap, hasTopNullAlt, isNullSchemaAlt,
            nullSchema, JSONSchema.empty]
        | none =>
          simp [broadenWithNull, he, broadenOneOfOrWrap, hasTopNullAlt, isNullSchemaAlt,
            nullSchema, JSONSchema.empty]
      · simp [broadenWithNull, he, hasTopNullAlt]
  | none =>
    cases oo with
    | some alts =>
      simp [broadenWithNull, broadenOneOfOrWrap, hasTopNullAlt, isNullSchemaAlt, nullSchema,
        JSONSchema.empty]
    | none =>
      simp [broadenWithNull, broadenOneOfOrWrap, hasTopNullAlt, isNullSchemaAlt, nullSchema,
        JSONSchema.empty]

theorem hasTopNullAlt_listFragment (nn : Bool) (x : JSONSchema) :
    hasTopNullAlt (listFragment nn x) = (nn == false) := by
  unfold listFragment
  cases nn with
  | true =>
    by_cases h1 : strTruthy x.ref = true
    · simp [h1, hasTopNullAlt, JSONSchema.empty]
    · by_cases h2 : x.oneOf.isSome = true
      · simp [h1, h2, hasTopNullAlt, JSONSchema.empty]
      · simp [h1, h2, hasTopNullAlt, JSONSchema.empty]
  | false =>
    by_cases h1 : strTruthy x.ref = true
    · simp [h1, hasTopNullAlt, JSONSchema.empty]
    · by_cases h2 : x.oneOf.isSome = true
      · simp [h1, h2, hasTopNullAlt, JSONSchema.empty]
      · simp [h1, h2, hasTopNullAlt, JSONSchema.empty]

theorem hasTopNullAlt_inputObjectFragment (name : String) (nn : Bool) :
    hasTopNullAlt (inputObjectFragment name nn) = (nn == false) := by
  cases nn with
  | true => simp [inputObjectFragment, hasTopNullAlt, JSONSchema.empty]
  | false =>
    simp [inputObjectFragment, hasTopNullAlt, isNullSchemaAlt, nullSchema, JSONSchema.empty]

theorem scalarTypesMap_tag_ne_null (name tag : String)
    (h : lookupKV scalarTypesMap name = some tag) : (tag == "null") = false := by
  have hmem := lookupKV_val_mem name tag scalarTypesMap h
  simp only [scalarTypesMap, List.map_cons, List.map_nil, List.mem_cons] at hmem
  rcases hmem with h | h | h | h | h | h | h
  all_goals first
    | (rw [h]; rfl)
    | exact absurd h (List.not_mem_nil tag)

/-- In a forced non-null context the synthesized fragment offers no
top-level null alternative, provided no registered custom scalar override
itself carries one. -/
theorem goFuel_nonNull_noNullAlt (env : GQLEnv) (options : JSONSchemaOptions)
    (hopts : ∀ kv ∈ options.customScalarSchemas, hasTopNullAlt kv.2 = false) :
    ∀ (fuel : Nat) (t : GQLType) (marked : List String) (res : DefinitionResult)
      (marked' : List String),
      getJSONSchemaFromGraphQLType env fuel t options true marked = some (res, marked') →
      hasTopNullAlt res.definition = false := by
  intro fuel
  induction fuel with
  | zero => intro t marked res marked' h; exact Option.noConfusion h
  | succ fuel ih =>
    intro t marked res marked' h
    cases t with
    | scalar name d =>
      rw [goFuel_succ_scalar] at h
      injection h with h'
      injection h' with h1 h2
      rw [← h1]
      show hasTopNullAlt (scalarCoreFragment options name true) = false
      unfold scalarCoreFragment
      cases hb : lookupKV scalarTypesMap name with
      | some tag =>
        have := scalarTypesMap_tag_ne_null name tag hb
        simp [hasTopNullAlt, JSONSchema.empty, this]
      | none =>
        cases hcu : lookupKV options.customScalarSchemas name with
        | some override =>
          have hmem := lookupKV_pair_mem name override options.customScalarSchemas hcu
          exact hopts (name, override) hmem
        | none => simp [hasTopNullAlt, JSONSchema.empty]
    | enum name values d =>
      rw [goFuel_succ_enum] at h
      injection h with h'
      injection h' with h1 h2
      rw [← h1]
      show hasTopNullAlt (enumCoreFragment values true) = false
      unfold enumCoreFragment
      simp [hasTopNullAlt, JSONSchema.empty]
    | list ofType =>
      rw [goFuel_succ_list] at h
      cases hin : getJSONSchemaFromGraphQLType env fuel ofType options false marked with
      | none => rw [hin] at h; exact Option.noConfusion h
      | some p =>
        rw [hin] at h
        simp only [Option.map_some'] at h
        injection h with h'
        injection h' with h1 h2
        rw [← h1]
        show hasTopNullAlt (listFragment true p.1.definition) = false
        rw [hasTopNullAlt_listFragment]
        rfl
    | nonNull ofType =>
      rw [goFuel_succ_nonNull] at h
      cases hin : getJSONSchemaFromGraphQLType env fuel ofType options true marked with
      | none => rw [hin] at h; exact Option.noConfusion h
      | some p =>
        rw [hin] at h
        simp only [Option.map_some'] at h
        injection h with h'
        injection h' with h1 h2
        rw [← h1]
        show hasTopNullAlt p.1.definition = false
        exact ih ofType marked p.1 p.2 (by rw [hin])
    | inputObject name =>
      cases hc : marked.contains name with
      | true =>
        rw [goFuel_succ_inputObject_marked env options fuel name true marked hc] at h
        injection h with h'
        injection h' with h1 h2
        rw [← h1]
        show hasTopNullAlt (inputObjectFragment name true) = false
        rw [hasTopNullAlt_inputObjectFragment]
        rfl
      | false =>
        rw [goFuel_succ_inputObject_fresh env options fuel name true marked hc] at h
        cases hpf : processFields
            (fun ty n st => getJSONSchemaFromGraphQLType env fuel ty options n st)
            options.useMarkdownDescription (objFields env name)
            (initialFieldDef env options name, [], name :: marked) with
        | none => rw [hpf] at h; exact Option.noConfusion h
        | some out =>
          rw [hpf] at h
          simp only [Option.map_some'] at h
          injection h with h'
          injection h' with h1 h2
          rw [← h1]
          show hasTopNullAlt (inputObjectFragment name true) = false
          rw [hasTopNullAlt_inputObjectFragment]
          rfl

/-- In a nullable context the synthesized fragment always offers a
top-level null alternative, for every type reference that is not itself a
NonNull wrapper. -/
theorem goFuel_nullable_hasNullAlt (env : GQLEnv) (options : JSONSchemaOptions) :
    ∀ (fuel : Nat) (t : GQLType) (marked : List String) (res : DefinitionResult)
      (marked' : List String),
      isNonNullType t = false →
      getJSONSchemaFromGraphQLType env fuel t options false marked = some (res, marked') →
      hasTopNullAlt res.definition = true := by
  intro fuel
  cases fuel with
  | zero => intro t marked res marked' _ h; exact Option.noConfusion h
  | succ fuel =>
    intro t marked res marked' hnn h
    cases t with
    | scalar name d =>
      rw [goFuel_succ_scalar] at h
      injection h with h'
      injection h' with h1 h2
      rw [← h1]
      show hasTopNullAlt (backfillIfNullable env (.scalar name d) options false
        (scalarCoreFragment options name false)) = true
      rw [hasTopNullAlt_backfillIfNullable]
      unfold scalarCoreFragment
      cases hb : lookupKV scalarTypesMap name with
      | some tag => simp [hasTopNullAlt, JSONSchema.empty]
      | none =>
        show hasTopNullAlt (broadenWithNull _) = true
        exact hasTopNullAlt_broadenWithNull _
    | enum name values d =>
      rw [goFuel_succ_enum] at h
      injection h with h'
      injection h' with h1 h2
      rw [← h1]
      show hasTopNullAlt (backfillIfNullable env (.enum name values d) options false
        (enumCoreFragment values false)) = true
      rw [hasTopNullAlt_backfillIfNullable]
      unfold enumCoreFragment
      simp [hasTopNullAlt, JSONSchema.empty]
    | list ofType =>
      rw [goFuel_succ_list] at h
      cases hin : getJSONSchemaFromGraphQLType env fuel ofType options false marked with
      | none => rw [hin] at h; exact Option.noConfusion h
      | some p =>
        rw [hin] at h
        simp only [Option.map_some'] at h
        injection h with h'
        injection h' with h1 h2
        rw [← h1]
        show hasTopNullAlt (backfillIfNullable env (.list ofType) options false
          (listFragment false p.1.definition)) = true
        rw [hasTopNullAlt_backfillIfNullable, hasTopNullAlt_listFragment]
        rfl
    | nonNull ofType => exact absurd hnn (by simp [isNonNullType])
    | inputObject name =>
      cases hc : marked.contains name with
      | true =>
        rw [goFuel_succ_inputObject_marked env options fuel name false marked hc] at h
        injection h with h'
        injection h' with h1 h2
        rw [← h1]
        show hasTopNullAlt (backfillIfNullable env (.inputObject name) options false
          (inputObjectFragment name false)) = true
        rw [hasTopNullAlt_backfillIfNullable, hasTopNullAlt_inputObjectFragment]
        rfl
      | false =>
        rw [goFuel_succ_inputObject_fresh env options fuel name false marked hc] at h
        cases hpf : processFields
            (fun ty n st => getJSONSchemaFromGraphQLType env fuel ty options n st)
            options.useMarkdownDescription (objFields env name)
            (initialFieldDef env options name, [], name :: marked) with
        | none => rw [hpf] at h; exact Option.noConfusion h
        | some out =>
          rw [hpf] at h
          simp only [Option.map_some'] at h
          injection h with h'
          injection h' with h1 h2
          rw [← h1]
          show hasTopNullAlt (backfillIfNullable env (.inputObject name) options false
            (inputObjectFragment name false)) = true
          rw [hasTopNullAlt_backfillIfNullable, hasTopNullAlt_inputObjectFragment]
          rfl

/-- C3 (amended): the nullability dichotomy.  In a forced non-null context
the synthesized fragment never carries a top-level null alternative (no
null type tag, no null enum entry, no null oneOf branch), provided no
registered custom scalar override itself carries one; in a nullable
context the fragment always carries such an alternative, for every type
reference that is not itself a NonNull wrapper (a NonNull wrapper forces
the context non-null regardless). -/
theorem c3_nullability_dichotomy :
    (∀ (env : GQLEnv) (options : JSONSchemaOptions),
      (∀ kv ∈ options.customScalarSchemas, hasTopNullAlt kv.2 = false) →
      ∀ (fuel : Nat) (t : GQLType) (marked : List String) (res : DefinitionResult)
        (marked' : List String),
        getJSONSchemaFromGraphQLType env fuel t options true marked = some (res, marked') →
        hasTopNullAlt res.definition = false) ∧
    (∀ (env : GQLEnv) (options : JSONSchemaOptions) (fuel : Nat) (t : GQLType)
      (marked : List String) (res : DefinitionResult) (marked' : List String),
      isNonNullType t = false →
      getJSONSchemaFromGraphQLType env fuel t options false marked = some (res, marked') →
      hasTopNullAlt res.definition = true) :=
  ⟨fun env options hopts fuel => goFuel_nonNull_noNullAlt env options hopts fuel,
   fun env options fuel => goFuel_nullable_hasNullAlt env options fuel⟩

/-- C3 witness: both directions of the amended dichotomy at the concrete
built-in scalar ID with default options. -/
theorem c3_nullability_dichotomy_witness :
    hasTopNullAlt (JSONSchema.empty.withType (some (.single "string"))) = false ∧
    hasTopNullAlt (JSONSchema.mk (some (.multi ["string", "null"])) none none none none none
      none none (some "ID") none) = true :=
  ⟨c3_nullability_dichotomy.1 [] defaultJSONSchemaOptions (by simp [defaultJSONSchemaOptions])
      1 (.scalar "ID" none) [] _ [] rfl,
   c3_nullability_dichotomy.2 [] defaultJSONSchemaOptions 1 (.scalar "ID" none) [] _ []
      rfl rfl⟩

/-- C3 counterexample: the claim as stated fails in both directions.  A
registered custom scalar override that itself lists a null type tag
survives into a non-null occurrence unchanged, and a NonNull-wrapped type
synthesized in a nullable context produces no null alternative because the
wrapper forces the inner context non-null. -/
theorem c3_counterexample :
    (¬ ∀ (res : DefinitionResult) (marked' : List String),
      getJSONSchemaFromGraphQLType [] 1 (.scalar "W" none)
          { useMarkdownDescription := false
            customScalarSchemas :=
              [("W", JSONSchema.empty.withType (some (.multi ["string", "null"])))] }
          true [] = some (res, marked') →
      hasTopNullAlt res.definition = false) ∧
    (¬ ∀ (res : DefinitionResult) (marked' : List String),
      getJSONSchemaFromGraphQLType [] 2 (.nonNull (.scalar "String" none))
          defaultJSONSchemaOptions false [] = some (res, marked') →
      hasTopNullAlt res.definition = true) := by
  constructor
  · intro h
    exact absurd (h _ _ rfl) (by decide)
  · intro h
    exact absurd (h _ _ rfl) (by decide)

theorem refsIn_mk (t : Option SchemaTypeTag) (e : Option (List (Option String)))
    (d : Option JSONVal) (it : Option JSONSchema) (r : Option String)
    (o : Option (List JSONSchema)) (p : Option (List (String × JSONSchema)))
    (q : Option (List String)) (ds md : Option String) :
    refsIn (JSONSchema.mk t e d it r o p q ds md) =
      (match r with | some s => [s] | none => []) ++
      (match it with | some i => refsIn i | none => []) ++
      (match o with | some alts => refsInList alts | none => []) ++
      (match p with | some props => refsInPairs props | none => []) := by
  conv_lhs => rw [refsIn.eq_def]

theorem refsInList_append (a b : List JSONSchema) :
    refsInList (a ++ b) = refsInList a ++ refsInList b := by
  induction a with
  | nil => rfl
  | cons s rest ih => simp [refsInList, ih]

theorem refsInPairs_append (a b : List (String × JSONSchema)) :
    refsInPairs (a ++ b) = refsInPairs a ++ refsInPairs b := by
  induction a with
  | nil => rfl
  | cons kv rest ih => simp [refsInPairs, ih]

theorem refsInPairs_mem (r : String) :
    ∀ l : List (String × JSONSchema), r ∈ refsInPairs l ↔ ∃ kv ∈ l, r ∈ refsIn kv.2 := by
  intro l
  induction l with
  | nil => simp [refsInPairs]
  | cons kv rest ih => simp [refsInPairs, ih]

theorem refsInList_mem (r : String) :
    ∀ l : List JSONSchema, r ∈ refsInList l ↔ ∃ s ∈ l, r ∈ refsIn s := by
  intro l
  induction l with
  | nil => simp [refsInList]
  | cons s rest ih => simp [refsInList, ih]

/-- The keys of an association list. -/
def kvKeys {α : Type} (l : List (String × α)) : List String := l.map Prod.fst

theorem insertKV_mem {α : Type} (entry : String × α) (k : String) (v : α)
    (l : List (String × α)) (h : entry ∈ insertKV l k v) : entry ∈ l ∨ entry = (k, v) := by
  unfold insertKV at h
  by_cases hany : (l.any (fun kv => kv.1 == k)) = true
  · rw [if_pos hany] at h
    rcases List.mem_map.mp h with ⟨kv, hkv, heq⟩
    by_cases hk : (kv.1 == k) = true
    · rw [if_pos hk] at heq
      exact Or.inr heq.symm
    · rw [if_neg hk] at heq
      exact Or.inl (heq ▸ hkv)
  · rw [if_neg hany] at h
    rcases List.mem_append.mp h with h | h
    · exact Or.inl h
    · exact Or.inr (List.mem_singleton.mp h)

theorem mergeDefs_mem (entry : String × JSONSchema) :
    ∀ (b a : List (String × JSONSchema)), entry ∈ mergeDefs a b → entry ∈ a ∨ entry ∈ b := by
  intro b
  induction b with
  | nil => intro a h; exact Or.inl h
  | cons kv rest ih =>
    intro a h
    rcases ih (insertKV a kv.1 kv.2) h with h1 | h1
    · rcases insertKV_mem entry kv.1 kv.2 a h1 with h2 | h2
      · exact Or.inl h2
      · right
        rw [h2]
        exact List.mem_cons_self kv rest
    · exact Or.inr (List.mem_cons_of_mem kv h1)

theorem insertKV_fresh {α : Type} (k : String) (v : α) (l : List (String × α))
    (h : k ∉ kvKeys l) : insertKV l k v = l ++ [(k, v)] := by
  unfold insertKV
  rw [if_neg]
  intro hany
  rcases List.any_eq_true.mp hany with ⟨kv, hkv, hk⟩
  exact h (List.mem_map.mpr ⟨kv, hkv, by simpa using hk⟩)

theorem mergeDefs_append :
    ∀ (b a : List (String × JSONSchema)), (kvKeys b).Nodup →
      (∀ n, n ∈ kvKeys b → n ∉ kvKeys a) → mergeDefs a b = a ++ b := by
  intro b
  induction b with
  | nil => intro a _ _; simp [mergeDefs]
  | cons kv rest ih =>
    intro a hnd hdisj
    have hk : kv.1 ∉ kvKeys a := hdisj kv.1 (by simp [kvKeys])
    have hstep : insertKV a kv.1 kv.2 = a ++ [kv] := by
      have := insertKV_fresh kv.1 kv.2 a hk
      simpa using this
    have hnd' : (kvKeys rest).Nodup := by
      simp only [kvKeys, List.map_cons, List.nodup_cons] at hnd
      exact hnd.2
    have hdisj' : ∀ n, n ∈ kvKeys rest → n ∉ kvKeys (a ++ [kv]) := by
      intro n hn
      have hna : n ∉ kvKeys a := hdisj n (List.mem_cons_of_mem _ hn)
      have hne : n ≠ kv.1 := by
        intro heq
        have hnd2 := hnd
        rw [show kvKeys (kv :: rest) = kv.1 :: kvKeys rest from rfl, List.nodup_cons] at hnd2
        exact hnd2.1 (heq ▸ hn)
      rw [show kvKeys (a ++ [kv]) = kvKeys a ++ [kv.1] from by simp [kvKeys]]
      simp only [List.mem_append, List.mem_singleton]
      rintro (h1 | h1)
      · exact hna h1
      · exact hne h1
    calc mergeDefs a (kv :: rest) = mergeDefs (insertKV a kv.1 kv.2) rest := rfl
    _ = insertKV a kv.1 kv.2 ++ rest := ih _ hnd' (by rw [hstep]; exact fun n hn => hdisj' n hn)
    _ = a ++ [kv] ++ rest := by rw [hstep]
    _ = a ++ (kv :: rest) := by simp

/-- The definitions returned by one synthesizer call are exactly the newly
marked names (no duplicates): the key correctness property of the
Visitation Marker. -/
def KeysInv (marked marked' : List String) (defs : List (String × JSONSchema)) : Prop :=
  (kvKeys defs).Nodup ∧ ∀ n, n ∈ kvKeys defs ↔ (n ∈ marked' ∧ n ∉ marked)

theorem processFields_keysInv
    (go : GQLType → Bool → List String → Option (DefinitionResult × List String))
    (hgo_mono : ∀ ty nn st res st', go ty nn st = some (res, st') → ∀ x, x ∈ st → x ∈ st')
    (hgo_inv : ∀ ty nn st res st', go ty nn st = some (res, st') →
      KeysInv st st' res.definitions)
    (umd : Bool) (base : List String) :
    ∀ (fields : List GQLField) (fd : JSONSchema) (defs : List (String × JSONSchema))
      (marked : List String) (out : JSONSchema × List (String × JSONSchema) × List String),
      (∀ x, x ∈ base → x ∈ marked) →
      KeysInv base marked defs →
      processFields go umd fields (fd, defs, marked) = some out →
      KeysInv base out.2.2 out.2.1 ∧ (∀ x, x ∈ marked → x ∈ out.2.2) := by
  intro fields
  induction fields with
  | nil =>
    intro fd defs marked out hsub hinv h
    injection h with h'
    rw [← h']
    exact ⟨hinv, fun x hx => hx⟩
  | cons f rest ih =>
    intro fd defs marked out hsub hinv h
    rw [processFields_cons] at h
    cases hres : go f.type false marked with
    | none => rw [hres] at h; exact Option.noConfusion h
    | some p =>
      obtain ⟨tres, marked'⟩ := p
      rw [hres] at h
      have hmono := hgo_mono _ _ _ _ _ hres
      have hinv' := hgo_inv _ _ _ _ _ hres
      have hdisj : ∀ n, n ∈ kvKeys tres.definitions → n ∉ kvKeys defs := by
        intro n hn hmem
        have h1 := (hinv.2 n).mp hmem
        have h2 := (hinv'.2 n).mp hn
        exact h2.2 h1.1
      have hmerge : mergeDefs defs tres.definitions = defs ++ tres.definitions :=
        mergeDefs_append tres.definitions defs hinv'.1 hdisj
      have hinvm : KeysInv base marked' (mergeDefs defs tres.definitions) := by
        rw [hmerge]
        have hkeys : kvKeys (defs ++ tres.definitions) =
            kvKeys defs ++ kvKeys tres.definitions := by simp [kvKeys]
        constructor
        · rw [hkeys, List.nodup_append]
          exact ⟨hinv.1, hinv'.1, fun n hn hn2 => hdisj n hn2 hn⟩
        · intro n
          rw [hkeys, List.mem_append]
          constructor
          · rintro (hn | hn)
            · have h1 := (hinv.2 n).mp hn
              exact ⟨hmono n h1.1, h1.2⟩
            · have h2 := (hinv'.2 n).mp hn
              exact ⟨h2.1, fun hb => h2.2 (hsub n hb)⟩
          · rintro ⟨hn1, hn2⟩
            by_cases hm : n ∈ marked
            · exact Or.inl ((hinv.2 n).mpr ⟨hm, hn2⟩)
            · exact Or.inr ((hinv'.2 n).mpr ⟨hn1, hm⟩)
      have hrec := ih _ _ _ out (fun x hx => hmono x (hsub x hx)) hinvm h
      exact ⟨hrec.1, fun x hx => hrec.2 x (hmono x hx)⟩

theorem mergeDefs_nil_left (defs : List (String × JSONSchema))
    (hnd : (kvKeys defs).Nodup) : mergeDefs [] defs = defs := by
  have := mergeDefs_append defs [] hnd (fun n _ hn => by simp [kvKeys] at hn)
  simpa using this

theorem getJSONSchemaFromGraphQLType_keysInv (env : GQLEnv) (options : JSONSchemaOptions) :
    ∀ (fuel : Nat) (t : GQLType) (nn : Bool) (marked : List String) (res : DefinitionResult)
      (marked' : List String),
      getJSONSchemaFromGraphQLType env fuel t options nn marked = some (res, marked') →
      KeysInv marked marked' res.definitions := by
  intro fuel
  induction fuel with
  | zero => intro t nn marked res marked' h; exact Option.noConfusion h
  | succ fuel ih =>
    intro t nn marked res marked' h
    cases t with
    | scalar name d =>
      rw [goFuel_succ_scalar] at h
      injection h with h'
      injection h' with h1 h2
      rw [← h1, ← h2]
      exact ⟨List.nodup_nil, by simp [kvKeys]⟩
    | enum name values d =>
      rw [goFuel_succ_enum] at h
      injection h with h'
      injection h' with h1 h2
      rw [← h1, ← h2]
      exact ⟨List.nodup_nil, by simp [kvKeys]⟩
    | list ofType =>
      rw [goFuel_succ_list] at h
      cases hin : getJSONSchemaFromGraphQLType env fuel ofType options false marked with
      | none => rw [hin] at h; exact Option.noConfusion h
      | some p =>
        obtain ⟨ir, m1⟩ := p
        rw [hin] at h
        simp only [Option.map_some'] at h
        injection h with h'
        injection h' with h1 h2
        have hinv := ih ofType false marked ir m1 hin
        rw [← h1, ← h2]
        show KeysInv marked m1 (mergeDefs [] ir.definitions)
        rw [mergeDefs_nil_left ir.definitions hinv.1]
        exact hinv
    | nonNull ofType =>
      rw [goFuel_succ_nonNull] at h
      cases hin : getJSONSchemaFromGraphQLType env fuel ofType options true marked with
      | none => rw [hin] at h; exact Option.noConfusion h
      | some p =>
        obtain ⟨ir, m1⟩ := p
        rw [hin] at h
        simp only [Option.map_some'] at h
        injection h with h'
        injection h' with h1 h2
        have hinv := ih ofType true marked ir m1 hin
        rw [← h1, ← h2]
        show KeysInv marked m1 (mergeDefs [] ir.definitions)
        rw [mergeDefs_nil_left ir.definitions hinv.1]
        exact hinv
    | inputObject name =>
      cases hc : marked.contains name with
      | true =>
        rw [goFuel_succ_inputObject_marked env options fuel name nn marked hc] at h
        injection h with h'
        injection h' with h1 h2
        rw [← h1, ← h2]
        exact ⟨List.nodup_nil, by simp [kvKeys]⟩
      | false =>
        rw [goFuel_succ_inputObject_fresh env options fuel name nn marked hc] at h
        cases hpf : processFields
            (fun ty n st => getJSONSchemaFromGraphQLType env fuel ty options n st)
            options.useMarkdownDescription (objFields env name)
            (initialFieldDef env options name, [], name :: marked) with
        | none => rw [hpf] at h; exact Option.noConfusion h
        | some out =>
          obtain ⟨fd2, defs2, m2⟩ := out
          rw [hpf] at h
          simp only [Option.map_some'] at h
          injection h with h'
          injection h' with h1 h2
          have hfold := processFields_keysInv
            (fun ty n st => getJSONSchemaFromGraphQLType env fuel ty options n st)
            (fun ty n st r st' hh => getJSONSchemaFromGraphQLType_mono env options fuel ty n st r st' hh)
            (fun ty n st r st' hh => ih ty n st r st' hh)
            options.useMarkdownDescription (name :: marked) (objFields env name)
            (initialFieldDef env options name) [] (name :: marked) (fd2, defs2, m2)
            (fun x hx => hx)
            ⟨List.nodup_nil, fun n =>
              ⟨fun hn => absurd hn (List.not_mem_nil n), fun hn => absurd hn.1 hn.2⟩⟩ hpf
        -- hfold : KeysInv (name :: marked) m2 defs2 ∧ name :: marked ⊆ m2
          have hname_not : name ∉ marked := by simpa using hc
          have hname_m2 : name ∈ m2 := hfold.2 name (List.mem_cons_self name marked)
          have hname_fresh : name ∉ kvKeys defs2 := by
            intro hmem
            have := (hfold.1.2 name).mp hmem
            exact this.2 (List.mem_cons_self name marked)
          have hins : insertKV defs2 name fd2 = defs2 ++ [(name, fd2)] :=
            insertKV_fresh name fd2 defs2 hname_fresh
          rw [← h1, ← h2]
          show KeysInv marked m2 (insertKV defs2 name fd2)
          rw [hins]
          have hkeys : kvKeys (defs2 ++ [(name, fd2)]) = kvKeys defs2 ++ [name] := by
            simp [kvKeys]
          constructor
          · rw [hkeys, List.nodup_append]
            refine ⟨hfold.1.1, List.nodup_singleton name, ?_⟩
            intro n hn hn2
            rw [List.mem_singleton] at hn2
            exact hname_fresh (hn2 ▸ hn)
          · intro n
            rw [hkeys, List.mem_append, List.mem_singleton]
            constructor
            · rintro (hn | hn)
              · have h3 := (hfold.1.2 n).mp hn
                refine ⟨h3.1, fun hb => h3.2 (List.mem_cons_of_mem name hb)⟩
              · rw [hn]
                exact ⟨hname_m2, hname_not⟩
            · rintro ⟨hn1, hn2⟩
              by_cases he : n = name
              · exact Or.inr he
              · refine Or.inl ((hfold.1.2 n).mpr ⟨hn1, ?_⟩)
                rw [List.mem_cons]
                rintro (h4 | h4)
                · exact he h4
                · exact hn2 h4

theorem KeysInv_merge (base marked marked' : List String)
    (a b : List (String × JSONSchema))
    (hsub : ∀ x, x ∈ base → x ∈ marked) (hmono : ∀ x, x ∈ marked → x ∈ marked')
    (ha : KeysInv base marked a) (hb : KeysInv marked marked' b) :
    KeysInv base marked' (mergeDefs a b) := by
  have hdisj : ∀ n, n ∈ kvKeys b → n ∉ kvKeys a := by
    intro n hn hmem
    exact ((hb.2 n).mp hn).2 ((ha.2 n).mp hmem).1
  have hmerge : mergeDefs a b = a ++ b := mergeDefs_append b a hb.1 hdisj
  rw [hmerge]
  have hkeys : kvKeys (a ++ b) = kvKeys a ++ kvKeys b := by simp [kvKeys]
  constructor
  · rw [hkeys, List.nodup_append]
    exact ⟨ha.1, hb.1, fun n hn hn2 => hdisj n hn2 hn⟩
  · intro n
    rw [hkeys, List.mem_append]
    constructor
    · rintro (hn | hn)
      · have h1 := (ha.2 n).mp hn
        exact ⟨hmono n h1.1, h1.2⟩
      · have h2 := (hb.2 n).mp hn
        exact ⟨h2.1, fun hbase => h2.2 (hsub n hbase)⟩
    · rintro ⟨hn1, hn2⟩
      by_cases hm : n ∈ marked
      · exact Or.inl ((ha.2 n).mpr ⟨hm, hn2⟩)
      · exact Or.inr ((hb.2 n).mpr ⟨hn1, hm⟩)

theorem buildStep_keysInv (env : GQLEnv) (options : JSONSchemaOptions)
    (doc : JSONSchemaDoc) (marked : List String) (entry : String × GQLType)
    (doc' : JSONSchemaDoc) (marked' : List String)
    (h : buildStep env options (some (doc, marked)) entry = some (doc', marked'))
    (hinv : KeysInv [] marked (doc.definitions.getD [])) :
    KeysInv [] marked' (doc'.definitions.getD []) := by
  simp only [buildStep, bind, Option.bind] at h
  cases hgo : getJSONSchemaFromGraphQLType env (initialFuel env marked entry.2) entry.2
      options false marked with
  | none => rw [hgo] at h; exact Option.noConfusion h
  | some out =>
    rw [hgo] at h
    obtain ⟨res, m1⟩ := out
    simp only [pure] at h
    injection h with h'
    injection h' with h1 h2
    have hres := getJSONSchemaFromGraphQLType_keysInv env options _ _ _ _ _ _ hgo
    have hmono := getJSONSchemaFromGraphQLType_mono env options _ _ _ _ _ _ hgo
    have hmerged : KeysInv [] m1 (mergeDefs (doc.definitions.getD []) res.definitions) :=
      KeysInv_merge [] marked m1 _ _ (fun x hx => absurd hx (List.not_mem_nil x))
        hmono hinv hres
    rw [← h1, ← h2]
    revert hmerged
    cases hreq : res.required <;> intro hmerged <;> simpa using hmerged

theorem foldl_buildStep_keysInv (env : GQLEnv) (options : JSONSchemaOptions) :
    ∀ (varMap : List (String × GQLType)) (doc : JSONSchemaDoc) (marked : List String)
      (out : JSONSchemaDoc × List String),
      KeysInv [] marked (doc.definitions.getD []) →
      varMap.foldl (buildStep env options) (some (doc, marked)) = some out →
      KeysInv [] out.2 (out.1.definitions.getD []) := by
  intro varMap
  induction varMap with
  | nil =>
    intro doc marked out hinv h
    injection h with h'
    rw [← h']
    exact hinv
  | cons e rest ih =>
    intro doc marked out hinv h
    simp only [List.foldl_cons] at h
    cases hstep : buildStep env options (some (doc, marked)) e with
    | none => rw [hstep, foldl_buildStep_none] at h; exact Option.noConfusion h
    | some acc1 =>
      rw [hstep] at h
      obtain ⟨doc1, m1⟩ := acc1
      exact ih doc1 m1 out (buildStep_keysInv env options doc marked e doc1 m1 hstep hinv) h

/-- C2: within one run, every reached (marked) input-object type name has
exactly one entry in the final definitions map, and the definitions map
has no duplicate keys, no matter how many distinct variables or fields
reference the type, including self-referential and mutually recursive
input-object types.  Reached-ness is witnessed by the final marker state
returned alongside the document. -/
theorem c2_definitions_written_once (env : GQLEnv) (options : JSONSchemaOptions)
    (variableToType : List (String × GQLType)) (doc : JSONSchemaDoc) (marked : List String)
    (h : buildVariablesJSONSchema env variableToType options = some (doc, marked)) :
    (defsKeys doc).Nodup ∧ ∀ n, n ∈ marked ↔ (defsKeys doc).count n = 1 := by
  unfold buildVariablesJSONSchema at h
  have hinv0 := foldl_buildStep_keysInv env options variableToType initialJSONSchemaDoc []
    (doc, marked)
    ⟨List.nodup_nil, fun n =>
      ⟨fun hn => absurd hn (List.not_mem_nil n), fun hn => absurd hn.1 hn.2⟩⟩ h
  have hinv : KeysInv [] marked (doc.definitions.getD []) := hinv0
  have hkeys : defsKeys doc = kvKeys (doc.definitions.getD []) := rfl
  constructor
  · rw [hkeys]; exact hinv.1
  · intro n
    have hmem : n ∈ kvKeys (doc.definitions.getD []) ↔ n ∈ marked := by
      rw [hinv.2 n]
      exact ⟨fun hn => hn.1, fun hn => ⟨hn, List.not_mem_nil n⟩⟩
    rw [hkeys]
    constructor
    · intro hn
      have hm : n ∈ kvKeys (doc.definitions.getD []) := hmem.mpr hn
      have hle := (List.nodup_iff_count_le_one.mp hinv.1) n
      have hpos : 0 < (kvKeys (doc.definitions.getD [])).count n :=
        List.count_pos_iff.mpr hm
      omega
    · intro hn
      have hpos : 0 < (kvKeys (doc.definitions.getD [])).count n := by omega
      exact hmem.mp (List.count_pos_iff.mp hpos)

/-- C2 witness: the run on the self-referential Filter environment marks
exactly the name Filter and registers it exactly once. -/
theorem c2_definitions_written_once_witness :
    (defsKeys { schemaUri := "https://json-schema.org/draft/2020-12/schema"
                type := "object"
                properties := [("f", .mk none none none none none
                  (some [JSONSchema.empty.withRef (some "#/definitions/Filter"), nullSchema])
                  none none (some "Filter") none)]
                required := []
                definitions := some [("Filter", .mk (some (.single "object")) none none none
                  none none
                  (some [("self", .mk none none none none none
                    (some [JSONSchema.empty.withRef (some "#/definitions/Filter"), nullSchema])
                    none none (some "Filter") none)])
                  (some []) (some "Filter") none)] }).Nodup ∧
    ∀ n, n ∈ ["Filter"] ↔
      (defsKeys { schemaUri := "https://json-schema.org/draft/2020-12/schema"
                  type := "object"
                  properties := [("f", .mk none none none none none
                    (some [JSONSchema.empty.withRef (some "#/definitions/Filter"), nullSchema])
                    none none (some "Filter") none)]
                  required := []
                  definitions := some [("Filter", .mk (some (.single "object")) none none none
                    none none
                    (some [("self", .mk none none none none none
                      (some [JSONSchema.empty.withRef (some "#/definitions/Filter"), nullSchema])
                      none none (some "Filter") none)])
                    (some []) (some "Filter") none)] }).count n = 1 :=
  c2_definitions_written_once c6Env defaultJSONSchemaOptions [("f", .inputObject "Filter")]
    _ ["Filter"] rfl

theorem refsIn_withDescription (x : JSONSchema) (v : Option String) :
    refsIn (x.withDescription v) = refsIn x := by
  cases x
  simp [JSONSchema.withDescription, refsIn_mk]

theorem refsIn_withMarkdownDescription (x : JSONSchema) (v : Option String) :
    refsIn (x.withMarkdownDescription v) = refsIn x := by
  cases x
  simp [JSONSchema.withMarkdownDescription, refsIn_mk]

theorem refsIn_withType (x : JSONSchema) (v : Option SchemaTypeTag) :
    refsIn (x.withType v) = refsIn x := by
  cases x
  simp [JSONSchema.withType, refsIn_mk]

theorem refsIn_withEnum (x : JSONSchema) (v : Option (List (Option String))) :
    refsIn (x.withEnum v) = refsIn x := by
  cases x
  simp [JSONSchema.withEnum, refsIn_mk]

theorem refsIn_withRequired (x : JSONSchema) (v : Option (List String)) :
    refsIn (x.withRequired v) = refsIn x := by
  cases x
  simp [JSONSchema.withRequired, refsIn_mk]

theorem refsIn_backfillIfNullable (env : GQLEnv) (t : GQLType) (options : JSONSchemaOptions)
    (nn : Bool) (x : JSONSchema) :
    refsIn (backfillIfNullable env t options nn x) = refsIn x := by
  unfold backfillIfNullable
  cases nn with
  | true => rfl
  | false => simp only [Bool.not_false, if_pos, refsIn_typeBackfill]

theorem refsIn_nullSchema : refsIn nullSchema = [] := rfl

theorem refsIn_enumCoreFragment (values : List String) (nn : Bool) :
    refsIn (enumCoreFragment values nn) = [] := by
  simp [enumCoreFragment, JSONSchema.empty, JSONSchema.withEnum, refsIn_mk]

theorem refsIn_broadenWithNull (x : JSONSchema) :
    refsIn (broadenWithNull x) = refsIn x := by
  obtain ⟨ty, en, de, it, re, oo, pr, rq, ds, md⟩ := x
  cases ty with
  | some tag =>
    cases tag with
    | multi tags => simp [broadenWithNull, refsIn_mk, JSONSchema.withType]
    | single tag =>
      by_cases he : (tag == "") = true
      · cases oo with
        | some alts =>
          simp [broadenWithNull, he, broadenOneOfOrWrap, refsIn_mk, JSONSchema.withOneOf,
            refsInList_append, refsInList, refsIn_nullSchema]
        | none =>
          simp [broadenWithNull, he, broadenOneOfOrWrap, refsIn_mk, JSONSchema.withOneOf,
            JSONSchema.empty, refsInList, refsIn_nullSchema]
      · simp [broadenWithNull, he, refsIn_mk, JSONSchema.withType]
  | none =>
    cases oo with
    | some alts =>
      simp [broadenWithNull, broadenOneOfOrWrap, refsIn_mk, JSONSchema.withOneOf,
        refsInList_append, refsInList, refsIn_nullSchema]
    | none =>
      simp [broadenWithNull, broadenOneOfOrWrap, refsIn_mk, JSONSchema.withOneOf,
        JSONSchema.empty, refsInList, refsIn_nullSchema]

theorem refsIn_scalarCoreFragment (options : JSONSchemaOptions) (name : String) (nn : Bool)
    (hopts : ∀ kv ∈ options.customScalarSchemas, refsIn kv.2 = []) :
    refsIn (scalarCoreFragment options name nn) = [] := by
  unfold scalarCoreFragment
  cases hb : lookupKV scalarTypesMap name with
  | some tag =>
    cases nn <;> simp [JSONSchema.empty, JSONSchema.withType, refsIn_mk]
  | none =>
    cases hcu : lookupKV options.customScalarSchemas name with
    | some override =>
      have h0 : refsIn override = [] :=
        hopts (name, override) (lookupKV_pair_mem name override _ hcu)
      cases nn with
      | true => simpa using h0
      | false => simp [refsIn_broadenWithNull, h0]
    | none =>
      cases nn with
      | true => simp [JSONSchema.empty, JSONSchema.withType, refsIn_mk]
      | false => simp [refsIn_broadenWithNull, JSONSchema.empty, JSONSchema.withType, refsIn_mk]

theorem refsIn_of_ref (x : JSONSchema) (r : String) (h : x.ref = some r) : r ∈ refsIn x := by
  obtain ⟨ty, en, de, it, re, oo, pr, rq, ds, md⟩ := x
  simp only [JSONSchema.ref_mk] at h
  rw [h, refsIn_mk]
  simp

theorem refsIn_of_oneOf (x : JSONSchema) (os : List JSONSchema) (h : x.oneOf = some os) :
    ∀ r ∈ refsInList os, r ∈ refsIn x := by
  obtain ⟨ty, en, de, it, re, oo, pr, rq, ds, md⟩ := x
  simp only [JSONSchema.oneOf_mk] at h
  rw [h, refsIn_mk]
  intro r hr
  simp [hr]

theorem refsIn_listFragment_sub (nn : Bool) (d : JSONSchema) :
    ∀ r ∈ refsIn (listFragment nn d), r ∈ refsIn d := by
  intro r hr
  unfold listFragment at hr
  by_cases h1 : strTruthy d.ref = true
  · rw [if_pos h1] at hr
    cases hd : d.ref with
    | none => rw [hd] at h1; exact absurd h1 (by simp [strTruthy])
    | some r0 =>
      rw [hd] at hr
      have : refsIn ((if nn then JSONSchema.empty.withType (some (.single "array"))
          else JSONSchema.empty.withType (some (.multi ["array", "null"]))).withItems
          (some (JSONSchema.empty.withRef (some r0)))) = [r0] := by
        cases nn <;>
          simp [JSONSchema.empty, JSONSchema.withType, JSONSchema.withItems,
            JSONSchema.withRef, refsIn_mk]
      rw [this] at hr
      rw [List.mem_singleton.mp hr]
      exact refsIn_of_ref d r0 hd
  · rw [if_neg h1] at hr
    by_cases h2 : d.oneOf.isSome = true
    · rw [if_pos h2] at hr
      cases hd : d.oneOf with
      | none => rw [hd] at h2; exact absurd h2 (by simp)
      | some os =>
        rw [hd] at hr
        have : refsIn ((if nn then JSONSchema.empty.withType (some (.single "array"))
            else JSONSchema.empty.withType (some (.multi ["array", "null"]))).withItems
            (some (JSONSchema.empty.withOneOf (some os)))) = refsInList os := by
          cases nn <;>
            simp [JSONSchema.empty, JSONSchema.withType, JSONSchema.withItems,
              JSONSchema.withOneOf, refsIn_mk]
        rw [this] at hr
        exact refsIn_of_oneOf d os hd r hr
    · rw [if_neg h2] at hr
      have : refsIn ((if nn then JSONSchema.empty.withType (some (.single "array"))
          else JSONSchema.empty.withType (some (.multi ["array", "null"]))).withItems
          (some d)) = refsIn d := by
        cases nn <;>
          simp [JSONSchema.empty, JSONSchema.withType, JSONSchema.withItems, refsIn_mk]
      rw [this] at hr
      exact hr

theorem refsIn_inputObjectFragment (name : String) (nn : Bool) :
    refsIn (inputObjectFragment name nn) = ["#/definitions/" ++ name] := by
  cases nn with
  | true => simp [inputObjectFragment, JSONSchema.empty, JSONSchema.withRef, refsIn_mk]
  | false =>
    simp [inputObjectFragment, JSONSchema.empty, JSONSchema.withRef, JSONSchema.withOneOf,
      refsIn_mk, refsInList, refsIn_nullSchema, nullSchema, JSONSchema.withType]

theorem refsIn_plain (x : JSONSchema) (hit : x.items = none) (href : x.ref = none)
    (hoo : x.oneOf = none) : refsIn x = refsInPairs (x.properties.getD []) := by
  obtain ⟨ty, en, de, it, re, oo, pr, rq, ds, md⟩ := x
  simp only [JSONSchema.items_mk, JSONSchema.ref_mk, JSONSchema.oneOf_mk,
    JSONSchema.properties_mk] at hit href hoo ⊢
  rw [hit, href, hoo, refsIn_mk]
  cases pr with
  | none => rfl
  | some props => simp

theorem getJSONSchemaFromField_plain (field : GQLField) (umd : Bool) :
    (getJSONSchemaFromField field umd).items = none ∧
    (getJSONSchemaFromField field umd).ref = none ∧
    (getJSONSchemaFromField field umd).oneOf = none ∧
    (getJSONSchemaFromField field umd).properties = none := by
  unfold getJSONSchemaFromField
  cases field.defaultValue with
  | none =>
    refine ⟨?_, ?_, ?_, ?_⟩
    · rw [descriptionBackfill_items]; rfl
    · rw [descriptionBackfill_ref]; rfl
    · rw [descriptionBackfill_oneOf]; rfl
    · rw [descriptionBackfill_properties]; rfl
  | some v =>
    refine ⟨?_, ?_, ?_, ?_⟩
    · rw [descriptionBackfill_items]; rfl
    · rw [descriptionBackfill_ref]; rfl
    · rw [descriptionBackfill_oneOf]; rfl
    · rw [descriptionBackfill_properties]; rfl

theorem refsIn_spreadMerge_plain (a b : JSONSchema) (hit : b.items = none)
    (href : b.ref = none) (hoo : b.oneOf = none) (hpr : b.properties = none) :
    refsIn (spreadMerge a b) = refsIn a := by
  obtain ⟨ta, ea, da, ia, ra, oa, pa, qa, dsa, mda⟩ := a
  obtain ⟨tb, eb, db, ib, rb, ob, pb, qb, dsb, mdb⟩ := b
  simp only [JSONSchema.items_mk, JSONSchema.ref_mk, JSONSchema.oneOf_mk,
    JSONSchema.properties_mk] at hit href hoo hpr
  rw [hit, href, hoo, hpr] at *
  simp only [spreadMerge, JSONSchema.items_mk, JSONSchema.ref_mk, JSONSchema.oneOf_mk,
    JSONSchema.properties_mk, JSONSchema.type_mk, JSONSchema.enum_mk, JSONSchema.default_mk,
    JSONSchema.required_mk, JSONSchema.description_mk, JSONSchema.markdownDescription_mk]
  rw [refsIn_mk, refsIn_mk]
  rfl

theorem refsIn_fieldProp (umd : Bool) (field : GQLField) (tres : DefinitionResult) :
    refsIn (fieldProp umd field tres) = refsIn tres.definition := by
  unfold fieldProp
  have hplain := getJSONSchemaFromField_plain field umd
  cases umd with
  | true =>
    simp only [if_pos]
    rw [refsIn_withMarkdownDescription, refsIn_withDescription,
      refsIn_spreadMerge_plain _ _ hplain.1 hplain.2.1 hplain.2.2.1 hplain.2.2.2]
  | false =>
    simp only [Bool.false_eq_true, if_false]
    rw [refsIn_withDescription,
      refsIn_spreadMerge_plain _ _ hplain.1 hplain.2.1 hplain.2.2.1 hplain.2.2.2]

theorem initialFieldDef_plain (env : GQLEnv) (options : JSONSchemaOptions) (name : String) :
    (initialFieldDef env options name).items = none ∧
    (initialFieldDef env options name).ref = none ∧
    (initialFieldDef env options name).oneOf = none ∧
    (initialFieldDef env options name).properties = some [] := by
  simp only [initialFieldDef]
  refine ⟨?_, ?_, ?_, ?_⟩ <;> (split <;> split <;> simp [JSONSchema.empty])

theorem fieldStepFieldDef_plain (umd : Bool) (field : GQLField) (tres : DefinitionResult)
    (fd : JSONSchema) (hit : fd.items = none) (href : fd.ref = none) (hoo : fd.oneOf = none) :
    (fieldStepFieldDef umd field tres fd).items = none ∧
    (fieldStepFieldDef umd field tres fd).ref = none ∧
    (fieldStepFieldDef umd field tres fd).oneOf = none ∧
    (fieldStepFieldDef umd field tres fd).properties =
      some (insertKV (fd.properties.getD []) field.name (fieldProp umd field tres)) := by
  unfold fieldStepFieldDef
  split <;> exact ⟨by simp [hit], by simp [href], by simp [hoo], by simp⟩

/-- Every ref string in the list has the canonical definitions-path form
and points at a marked name. -/
def RefsOk (marked : List String) (refs : List String) : Prop :=
  ∀ r ∈ refs, ∃ n, r = "#/definitions/" ++ n ∧ n ∈ marked

theorem RefsOk_mono (marked marked' : List String) (refs : List String)
    (hsub : ∀ x, x ∈ marked → x ∈ marked') (h : RefsOk marked refs) : RefsOk marked' refs :=
  fun r hr => (h r hr).elim (fun n hn => ⟨n, hn.1, hsub n hn.2⟩)

theorem RefsOk_sub (marked : List String) (refs refs' : List String)
    (hsub : ∀ r, r ∈ refs' → r ∈ refs) (h : RefsOk marked refs) : RefsOk marked refs' :=
  fun r hr => h r (hsub r hr)

theorem processFields_refsInv
    (go : GQLType → Bool → List String → Option (DefinitionResult × List String))
    (hgo_mono : ∀ ty nn st res st', go ty nn st = some (res, st') → ∀ x, x ∈ st → x ∈ st')
    (hgo_refs : ∀ ty nn st res st', go ty nn st = some (res, st') →
      RefsOk st' (refsIn res.definition) ∧ ∀ kv ∈ res.definitions, RefsOk st' (refsIn kv.2))
    (umd : Bool) :
    ∀ (fields : List GQLField) (fd : JSONSchema) (defs : List (String × JSONSchema))
      (marked : List String) (out : JSONSchema × List (String × JSONSchema) × List String),
      processFields go umd fields (fd, defs, marked) = some out →
      fd.items = none → fd.ref = none → fd.oneOf = none →
      RefsOk marked (refsInPairs (fd.properties.getD [])) →
      (∀ kv ∈ defs, RefsOk marked (refsIn kv.2)) →
      out.1.items = none ∧ out.1.ref = none ∧ out.1.oneOf = none ∧
        RefsOk out.2.2 (refsInPairs (out.1.properties.getD [])) ∧
        (∀ kv ∈ out.2.1, RefsOk out.2.2 (refsIn kv.2)) := by
  intro fields
  induction fields with
  | nil =>
    intro fd defs marked out h hit href hoo hprops hdefs
    injection h with h'
    rw [← h']
    exact ⟨hit, href, hoo, hprops, hdefs⟩
  | cons f rest ih =>
    intro fd defs marked out h hit href hoo hprops hdefs
    rw [processFields_cons] at h
    cases hres : go f.type false marked with
    | none => rw [hres] at h; exact Option.noConfusion h
    | some p =>
      obtain ⟨tres, marked'⟩ := p
      rw [hres] at h
      have hmono := hgo_mono _ _ _ _ _ hres
      have hrefs := hgo_refs _ _ _ _ _ hres
      have hplain := fieldStepFieldDef_plain umd f tres fd hit href hoo
      have hprops' : RefsOk marked'
          (refsInPairs ((fieldStepFieldDef umd f tres fd).properties.getD [])) := by
        rw [hplain.2.2.2]
        intro r hr
        simp only [Option.getD_some] at hr
        rcases (refsInPairs_mem r _).mp hr with ⟨kv, hkv, hkvr⟩
        rcases insertKV_mem kv f.name (fieldProp umd f tres) _ hkv with hold | hnew
        · exact RefsOk_mono marked marked' _ hmono hprops r
            ((refsInPairs_mem r _).mpr ⟨kv, hold, hkvr⟩)
        · rw [hnew] at hkvr
          simp only at hkvr
          rw [refsIn_fieldProp] at hkvr
          exact hrefs.1 r hkvr
      have hdefs' : ∀ kv ∈ mergeDefs defs tres.definitions, RefsOk marked' (refsIn kv.2) := by
        intro kv hkv
        rcases mergeDefs_mem kv tres.definitions defs hkv with hold | hnew
        · exact RefsOk_mono marked marked' _ hmono (hdefs kv hold)
        · exact hrefs.2 kv hnew
      exact ih _ _ _ out h hplain.1 hplain.2.1 hplain.2.2.1 hprops' hdefs'

theorem getJSONSchemaFromGraphQLType_refsInv (env : GQLEnv) (options : JSONSchemaOptions)
    (hopts : ∀ kv ∈ options.customScalarSchemas, refsIn kv.2 = []) :
    ∀ (fuel : Nat) (t : GQLType) (nn : Bool) (marked : List String) (res : DefinitionResult)
      (marked' : List String),
      getJSONSchemaFromGraphQLType env fuel t options nn marked = some (res, marked') →
      RefsOk marked' (refsIn res.definition) ∧
        ∀ kv ∈ res.definitions, RefsOk marked' (refsIn kv.2) := by
  intro fuel
  induction fuel with
  | zero => intro t nn marked res marked' h; exact Option.noConfusion h
  | succ fuel ih =>
    intro t nn marked res marked' h
    cases t with
    | scalar name d =>
      rw [goFuel_succ_scalar] at h
      injection h with h'
      injection h' with h1 h2
      rw [← h1]
      constructor
      · show RefsOk marked' (refsIn (backfillIfNullable env (.scalar name d) options nn
          (scalarCoreFragment options name nn)))
        rw [refsIn_backfillIfNullable, refsIn_scalarCoreFragment options name nn hopts]
        exact fun r hr => absurd hr (List.not_mem_nil r)
      · exact fun kv hkv => absurd hkv (List.not_mem_nil kv)
    | enum name values d =>
      rw [goFuel_succ_enum] at h
      injection h with h'
      injection h' with h1 h2
      rw [← h1]
      constructor
      · show RefsOk marked' (refsIn (backfillIfNullable env (.enum name values d) options nn
          (enumCoreFragment values nn)))
        rw [refsIn_backfillIfNullable, refsIn_enumCoreFragment]
        exact fun r hr => absurd hr (List.not_mem_nil r)
      · exact fun kv hkv => absurd hkv (List.not_mem_nil kv)
    | list ofType =>
      rw [goFuel_succ_list] at h
      cases hin : getJSONSchemaFromGraphQLType env fuel ofType options false marked with
      | none => rw [hin] at h; exact Option.noConfusion h
      | some p =>
        obtain ⟨ir, m1⟩ := p
        rw [hin] at h
        simp only [Option.map_some'] at h
        injection h with h'
        injection h' with h1 h2
        have hih := ih ofType false marked ir m1 hin
        rw [← h1, ← h2]
        constructor
        · show RefsOk m1 (refsIn (backfillIfNullable env (.list ofType) options nn
            (listFragment nn ir.definition)))
          rw [refsIn_backfillIfNullable]
          exact RefsOk_sub m1 _ _ (refsIn_listFragment_sub nn ir.definition) hih.1
        · intro kv hkv
          rcases mergeDefs_mem kv ir.definitions [] hkv with hnil | hmem
          · exact absurd hnil (List.not_mem_nil kv)
          · exact hih.2 kv hmem
    | nonNull ofType =>
      rw [goFuel_succ_nonNull] at h
      cases hin : getJSONSchemaFromGraphQLType env fuel ofType options true marked with
      | none => rw [hin] at h; exact Option.noConfusion h
      | some p =>
        obtain ⟨ir, m1⟩ := p
        rw [hin] at h
        simp only [Option.map_some'] at h
        injection h with h'
        injection h' with h1 h2
        have hih := ih ofType true marked ir m1 hin
        rw [← h1, ← h2]
        constructor
        · show RefsOk m1 (refsIn (backfillIfNullable env (.nonNull ofType) options nn
            ir.definition))
          rw [refsIn_backfillIfNullable]
          exact hih.1
        · intro kv hkv
          rcases mergeDefs_mem kv ir.definitions [] hkv with hnil | hmem
          · exact absurd hnil (List.not_mem_nil kv)
          · exact hih.2 kv hmem
    | inputObject name =>
      cases hc : marked.contains name with
      | true =>
        rw [goFuel_succ_inputObject_marked env options fuel name nn marked hc] at h
        injection h with h'
        injection h' with h1 h2
        rw [← h1, ← h2]
        constructor
        · show RefsOk marked (refsIn (backfillIfNullable env (.inputObject name) options nn
            (inputObjectFragment name nn)))
          rw [refsIn_backfillIfNullable, refsIn_inputObjectFragment]
          intro r hr
          rw [List.mem_singleton.mp hr]
          exact ⟨name, rfl, by simpa using hc⟩
        · exact fun kv hkv => absurd hkv (List.not_mem_nil kv)
      | false =>
        rw [goFuel_succ_inputObject_fresh env options fuel name nn marked hc] at h
        cases hpf : processFields
            (fun ty n st => getJSONSchemaFromGraphQLType env fuel ty options n st)
            options.useMarkdownDescription (objFields env name)
            (initialFieldDef env options name, [], name :: marked) with
        | none => rw [hpf] at h; exact Option.noConfusion h
        | some out =>
          obtain ⟨fd2, defs2, m2⟩ := out
          rw [hpf] at h
          simp only [Option.map_some'] at h
          injection h with h'
          injection h' with h1 h2
          have hinit := initialFieldDef_plain env options name
          have hfold := processFields_refsInv
            (fun ty n st => getJSONSchemaFromGraphQLType env fuel ty options n st)
            (fun ty n st r st' hh =>
              getJSONSchemaFromGraphQLType_mono env options fuel ty n st r st' hh)
            (fun ty n st r st' hh => ih ty n st r st' hh)
            options.useMarkdownDescription (objFields env name)
            (initialFieldDef env options name) [] (name :: marked) (fd2, defs2, m2) hpf
            hinit.1 hinit.2.1 hinit.2.2.1
            (by
              rw [hinit.2.2.2]
              exact fun r hr => absurd hr (List.not_mem_nil r))
            (fun kv hkv => absurd hkv (List.not_mem_nil kv))
          have hmarkmono : ∀ x, x ∈ name :: marked → x ∈ m2 :=
            processFields_mono _
              (fun ty n st r st' hh =>
                getJSONSchemaFromGraphQLType_mono env options fuel ty n st r st' hh)
              _ _ _ _ hpf
          rw [← h1, ← h2]
          constructor
          · show RefsOk m2 (refsIn (backfillIfNullable env (.inputObject name) options nn
              (inputObjectFragment name nn)))
            rw [refsIn_backfillIfNullable, refsIn_inputObjectFragment]
            intro r hr
            rw [List.mem_singleton.mp hr]
            exact ⟨name, rfl, hmarkmono name (List.mem_cons_self name marked)⟩
          · intro kv hkv
            rcases insertKV_mem kv name fd2 defs2 hkv with hold | hnew
            · exact hfold.2.2.2.2 kv hold
            · rw [hnew]
              show RefsOk m2 (refsIn fd2)
              rw [refsIn_plain fd2 hfold.1 hfold.2.1 hfold.2.2.1]
              exact hfold.2.2.2.1

theorem buildStep_refsInv (env : GQLEnv) (options : JSONSchemaOptions)
    (hopts : ∀ kv ∈ options.customScalarSchemas, refsIn kv.2 = [])
    (doc : JSONSchemaDoc) (marked : List String) (entry : String × GQLType)
    (doc' : JSONSchemaDoc) (marked' : List String)
    (h : buildStep env options (some (doc, marked)) entry = some (doc', marked'))
    (hprops : RefsOk marked (refsInPairs doc.properties))
    (hdefs : ∀ kv ∈ doc.definitions.getD [], RefsOk marked (refsIn kv.2)) :
    RefsOk marked' (refsInPairs doc'.properties) ∧
      (∀ kv ∈ doc'.definitions.getD [], RefsOk marked' (refsIn kv.2)) ∧
      (∀ x, x ∈ marked → x ∈ marked') := by
  simp only [buildStep, bind, Option.bind] at h
  cases hgo : getJSONSchemaFromGraphQLType env (initialFuel env marked entry.2) entry.2
      options false marked with
  | none => rw [hgo] at h; exact Option.noConfusion h
  | some out =>
    rw [hgo] at h
    obtain ⟨res, m1⟩ := out
    simp only [pure] at h
    injection h with h'
    injection h' with h1 h2
    have hmono := getJSONSchemaFromGraphQLType_mono env options _ _ _ _ _ _ hgo
    have hrefs := getJSONSchemaFromGraphQLType_refsInv env options hopts _ _ _ _ _ _ hgo
    have hp : doc'.properties = insertKV doc.properties entry.1 res.definition := by
      rw [← h1]
      cases res.required <;> rfl
    have hd : doc'.definitions.getD [] =
        mergeDefs (doc.definitions.getD []) res.definitions := by
      rw [← h1]
      cases res.required <;> rfl
    rw [← h2]
    refine ⟨?_, ?_, hmono⟩
    · rw [hp]
      intro r hr
      rcases (refsInPairs_mem r _).mp hr with ⟨kv, hkv, hkvr⟩
      rcases insertKV_mem kv entry.1 res.definition _ hkv with hold | hnew
      · exact RefsOk_mono marked m1 _ hmono hprops r ((refsInPairs_mem r _).mpr ⟨kv, hold, hkvr⟩)
      · rw [hnew] at hkvr
        exact hrefs.1 r hkvr
    · rw [hd]
      intro kv hkv
      rcases mergeDefs_mem kv res.definitions _ hkv with hold | hnew
      · exact RefsOk_mono marked m1 _ hmono (hdefs kv hold)
      · exact hrefs.2 kv hnew

theorem foldl_buildStep_refsInv (env : GQLEnv) (options : JSONSchemaOptions)
    (hopts : ∀ kv ∈ options.customScalarSchemas, refsIn kv.2 = []) :
    ∀ (varMap : List (String × GQLType)) (doc : JSONSchemaDoc) (marked : List String)
      (out : JSONSchemaDoc × List String),
      RefsOk marked (refsInPairs doc.properties) →
      (∀ kv ∈ doc.definitions.getD [], RefsOk marked (refsIn kv.2)) →
      varMap.foldl (buildStep env options) (some (doc, marked)) = some out →
      RefsOk out.2 (refsInPairs out.1.properties) ∧
        ∀ kv ∈ out.1.definitions.getD [], RefsOk out.2 (refsIn kv.2) := by
  intro varMap
  induction varMap with
  | nil =>
    intro doc marked out hprops hdefs h
    injection h with h'
    rw [← h']
    exact ⟨hprops, hdefs⟩
  | cons e rest ih =>
    intro doc marked out hprops hdefs h
    simp only [List.foldl_cons] at h
    cases hstep : buildStep env options (some (doc, marked)) e with
    | none => rw [hstep, foldl_buildStep_none] at h; exact Option.noConfusion h
    | some acc1 =>
      rw [hstep] at h
      obtain ⟨doc1, m1⟩ := acc1
      have hb := buildStep_refsInv env options hopts doc marked e doc1 m1 hstep hprops hdefs
      exact ih doc1 m1 out hb.1 hb.2.1 h

/-- C1 (amended): for every variable map and every options value whose
registered custom scalar override fragments contain no ref member
anywhere, every ref string occurring anywhere in the returned document (in
a variable property, a list's items, a oneOf alternative, or inside a
registered definition) has the canonical form of a definitions path whose
name is a key of the returned document's final definitions map. -/
theorem c1_refs_point_to_definitions (env : GQLEnv) (options : JSONSchemaOptions)
    (hopts : ∀ kv ∈ options.customScalarSchemas, refsIn kv.2 = [])
    (variableToType : List (String × GQLType)) (doc : JSONSchemaDoc)
    (h : getVariablesJSONSchema env variableToType options = some doc) :
    ∀ r ∈ docRefs doc, ∃ n, r = "#/definitions/" ++ n ∧ n ∈ defsKeys doc := by
  unfold getVariablesJSONSchema at h
  cases hb : buildVariablesJSONSchema env variableToType options with
  | none => rw [hb] at h; exact Option.noConfusion h
  | some out =>
    rw [hb] at h
    obtain ⟨docB, marked⟩ := out
    simp only [Option.map_some'] at h
    injection h with hdoc
    subst hdoc
    unfold buildVariablesJSONSchema at hb
    have hrefs := foldl_buildStep_refsInv env options hopts variableToType
      initialJSONSchemaDoc [] (docB, marked)
      (fun r hr => absurd hr (List.not_mem_nil r))
      (fun kv hkv => absurd hkv (List.not_mem_nil kv)) hb
    have hkeys0 := foldl_buildStep_keysInv env options variableToType initialJSONSchemaDoc []
      (docB, marked)
      ⟨List.nodup_nil, fun n =>
        ⟨fun hn => absurd hn (List.not_mem_nil n), fun hn => absurd hn.1 hn.2⟩⟩ hb
    have hkeys : KeysInv [] marked (docB.definitions.getD []) := hkeys0
    have hrefs1 : RefsOk marked (refsInPairs docB.properties) := hrefs.1
    have hrefs2 : ∀ kv ∈ docB.definitions.getD [], RefsOk marked (refsIn kv.2) := hrefs.2
    intro r hr
    unfold docRefs at hr
    rcases List.mem_append.mp hr with h1 | h1
    · rcases hrefs1 r h1 with ⟨n, hn1, hn2⟩
      exact ⟨n, hn1, (hkeys.2 n).mpr ⟨hn2, List.not_mem_nil n⟩⟩
    · rcases (refsInPairs_mem r _).mp h1 with ⟨kv, hkv, hkvr⟩
      rcases hrefs2 kv hkv r hkvr with ⟨n, hn1, hn2⟩
      exact ⟨n, hn1, (hkeys.2 n).mpr ⟨hn2, List.not_mem_nil n⟩⟩

/-- C1 witness: the amended theorem applied to the self-referential Filter
run, at the ref string produced for the recursive self field. -/
theorem c1_refs_point_to_definitions_witness :
    ∃ n, "#/definitions/Filter" = "#/definitions/" ++ n ∧
      n ∈ defsKeys { schemaUri := "https://json-schema.org/draft/2020-12/schema"
                     type := "object"
                     properties := [("f", .mk none none none none none
                       (some [JSONSchema.empty.withRef (some "#/definitions/Filter"), nullSchema])
                       none none (some "Filter") none)]
                     required := []
                     definitions := some [("Filter", .mk (some (.single "object")) none none none
                       none none
                       (some [("self", .mk none none none none none
                         (some [JSONSchema.empty.withRef (some "#/definitions/Filter"),
                           nullSchema])
                         none none (some "Filter") none)])
                       (some []) (some "Filter") none)] } :=
  c1_refs_point_to_definitions c6Env defaultJSONSchemaOptions
    (fun kv hkv => absurd hkv (List.not_mem_nil kv))
    [("f", .inputObject "Filter")] _ rfl "#/definitions/Filter" (by decide)

/-- C1 counterexample: a registered custom scalar override carrying a ref
to an unregistered name is spliced into the document verbatim, so the
returned document contains a ref whose target is not a key of the (empty)
definitions map, refuting the claim for arbitrary options values. -/
theorem c1_counterexample :
    ¬ (∀ doc, getVariablesJSONSchema [] [("x", .scalar "Weird" none)]
          { useMarkdownDescription := false
            customScalarSchemas :=
              [("Weird", JSONSchema.empty.withRef (some "#/definitions/Ghost"))] } =
        some doc →
        ∀ r ∈ docRefs doc, ∃ n, r = "#/definitions/" ++ n ∧ n ∈ defsKeys doc) := by
  intro h
  obtain ⟨n, hn1, hn2⟩ := h _ rfl "#/definitions/Ghost" (by decide)
  exact absurd hn2 (List.not_mem_nil n)

theorem mdCoversDesc_mk (t : Option SchemaTypeTag) (e : Option (List (Option String)))
    (d : Option JSONVal) (it : Option JSONSchema) (r : Option String)
    (o : Option (List JSONSchema)) (p : Option (List (String × JSONSchema)))
    (q : Option (List String)) (ds md : Option String) :
    mdCoversDesc (JSONSchema.mk t e d it r o p q ds md) =
      ((ds.isNone || md.isSome) &&
       (match it with | some i => mdCoversDesc i | none => true) &&
       (match o with | some alts => mdCoversDescList alts | none => true) &&
       (match p with | some props => mdCoversDescPairs props | none => true)) := by
  conv_lhs => rw [mdCoversDesc.eq_def]

theorem mdsIn_mk (t : Option SchemaTypeTag) (e : Option (List (Option String)))
    (d : Option JSONVal) (it : Option JSONSchema) (r : Option String)
    (o : Option (List JSONSchema)) (p : Option (List (String × JSONSchema)))
    (q : Option (List String)) (ds md : Option String) :
    mdsIn (JSONSchema.mk t e d it r o p q ds md) =
      (match md with | some m => [m] | none => []) ++
      (match it with | some i => mdsIn i | none => []) ++
      (match o with | some alts => mdsInList alts | none => []) ++
      (match p with | some props => mdsInPairs props | none => []) := by
  conv_lhs => rw [mdsIn.eq_def]

/-- A fragment is markdown-correct: wherever a description is present so is
a markdown description, and every markdown description embeds a fenced
graphql code block. -/
def MdOkFrag (x : JSONSchema) : Prop :=
  mdCoversDesc x = true ∧ ∀ m ∈ mdsIn x, ContainsFencedBlock m

theorem Fenced_append_left (p m : String) (h : ContainsFencedBlock m) :
    ContainsFencedBlock (p ++ m) := by
  obtain ⟨before, code, hm⟩ := h
  exact ⟨p ++ before, code, by rw [hm, ← String.append_assoc]⟩

theorem Fenced_renderMd (t : GQLType) : ContainsFencedBlock (renderTypeToString t true) :=
  ⟨"", renderType t, by
    show renderTypeToString t true = "" ++ ("```graphql\n" ++ renderType t ++ "\n```")
    rw [String.append_empty_left]
    rfl⟩

theorem mdOk_setters (x : JSONSchema) (ds : String) (md : String)
    (hx : MdOkFrag x) (hmd : ContainsFencedBlock md) :
    MdOkFrag ((x.withDescription (some ds)).withMarkdownDescription (some md)) := by
  obtain ⟨t, e, d, it, r, o, p, q, ds0, md0⟩ := x
  obtain ⟨h1, h2⟩ := hx
  rw [mdCoversDesc_mk] at h1
  rw [mdsIn_mk] at h2
  constructor
  · simp only [JSONSchema.withDescription, JSONSchema.withMarkdownDescription, mdCoversDesc_mk]
    simp only [Bool.and_eq_true] at h1 ⊢
    exact ⟨⟨⟨by simp, h1.1.1.2⟩, h1.1.2⟩, h1.2⟩
  · simp only [JSONSchema.withDescription, JSONSchema.withMarkdownDescription, mdsIn_mk]
    intro m hm
    rcases List.mem_append.mp hm with hm1 | hm1
    · rcases List.mem_append.mp hm1 with hm2 | hm2
      · rcases List.mem_append.mp hm2 with hm3 | hm3
        · rw [List.mem_singleton.mp hm3]
          exact hmd
        · exact h2 m (by simp [hm3])
      · exact h2 m (by simp [hm2])
    · exact h2 m (by simp [hm1])

theorem descriptionBackfill_mdOk (hp sc : Bool) (od : Option String) (r rm : String)
    (x : JSONSchema) (hx : MdOkFrag x) (hrm : ContainsFencedBlock rm) :
    MdOkFrag (descriptionBackfill hp sc od r rm true x) := by
  unfold descriptionBackfill
  split
  · show MdOkFrag (if true = true then _ else _)
    rw [if_pos rfl]
    exact mdOk_setters x _ _ hx (Fenced_append_left _ _ hrm)
  · split
    · show MdOkFrag (if true = true then _ else _)
      rw [if_pos rfl]
      exact mdOk_setters x _ _ hx (Fenced_append_left _ _ hrm)
    · show MdOkFrag (if true = true then _ else _)
      rw [if_pos rfl]
      exact mdOk_setters x _ _ hx hrm

/-- All fragments of an association list are markdown-correct. -/
def MdOkPairs (l : List (String × JSONSchema)) : Prop := ∀ kv ∈ l, MdOkFrag kv.2

theorem mdCoversDescPairs_iff (l : List (String × JSONSchema)) :
    mdCoversDescPairs l = true ↔ ∀ kv ∈ l, mdCoversDesc kv.2 = true := by
  induction l with
  | nil => simp [mdCoversDescPairs]
  | cons kv rest ih => simp [mdCoversDescPairs, ih]

theorem mdCoversDescList_iff (l : List JSONSchema) :
    mdCoversDescList l = true ↔ ∀ s ∈ l, mdCoversDesc s = true := by
  induction l with
  | nil => simp [mdCoversDescList]
  | cons s rest ih => simp [mdCoversDescList, ih]

theorem mdsInPairs_mem (m : String) (l : List (String × JSONSchema)) :
    m ∈ mdsInPairs l ↔ ∃ kv ∈ l, m ∈ mdsIn kv.2 := by
  induction l with
  | nil => simp [mdsInPairs]
  | cons kv rest ih => simp [mdsInPairs, ih]

theorem mdsInList_mem (m : String) (l : List JSONSchema) :
    m ∈ mdsInList l ↔ ∃ s ∈ l, m ∈ mdsIn s := by
  induction l with
  | nil => simp [mdsInList]
  | cons s rest ih => simp [mdsInList, ih]

theorem MdOk_assemble (x : JSONSchema) (hit : x.items = none) (hoo : x.oneOf = none)
    (htop : (x.description.isNone || x.markdownDescription.isSome) = true)
    (htopmd : ∀ m, x.markdownDescription = some m → ContainsFencedBlock m)
    (hprops : MdOkPairs (x.properties.getD [])) : MdOkFrag x := by
  obtain ⟨t, e, d, it, r, o, p, q, ds, md⟩ := x
  simp only [JSONSchema.items_mk, JSONSchema.oneOf_mk, JSONSchema.description_mk,
    JSONSchema.markdownDescription_mk, JSONSchema.properties_mk] at hit hoo htop htopmd hprops
  subst hit hoo
  constructor
  · rw [mdCoversDesc_mk]
    simp only [Bool.and_eq_true]
    refine ⟨⟨⟨htop, trivial⟩, trivial⟩, ?_⟩
    cases p with
    | none => rfl
    | some props =>
      rw [mdCoversDescPairs_iff]
      intro kv hkv
      exact (hprops kv (by simpa using hkv)).1
  · rw [mdsIn_mk]
    intro m hm
    rcases List.mem_append.mp hm with hm1 | hm1
    · rcases List.mem_append.mp hm1 with hm2 | hm2
      · rcases List.mem_append.mp hm2 with hm3 | hm3
        · cases md with
          | none => exact absurd hm3 (List.not_mem_nil m)
          | some m0 =>
            rw [List.mem_singleton.mp hm3]
            exact htopmd m0 rfl
        · exact absurd hm3 (List.not_mem_nil m)
      · exact absurd hm2 (List.not_mem_nil m)
    · cases p with
      | none => exact absurd hm1 (List.not_mem_nil m)
      | some props =>
        rcases (mdsInPairs_mem m props).mp hm1 with ⟨kv, hkv, hkvm⟩
        exact (hprops kv (by simpa using hkv)).2 m hkvm

theorem MdOk_oneOf_extract (d : JSONSchema) (os : List JSONSchema) (h : MdOkFrag d)
    (hoo : d.oneOf = some os) : ∀ s ∈ os, MdOkFrag s := by
  obtain ⟨t, e, dd, it, r, o, p, q, ds, md⟩ := d
  obtain ⟨h1, h2⟩ := h
  simp only [JSONSchema.oneOf_mk] at hoo
  subst hoo
  rw [mdCoversDesc_mk] at h1
  rw [mdsIn_mk] at h2
  simp only [Bool.and_eq_true] at h1
  intro s hs
  constructor
  · exact (mdCoversDescList_iff os).mp h1.1.2 s hs
  · intro m hm
    exact h2 m (by
      simp only [List.mem_append]
      exact Or.inl (Or.inr ((mdsInList_mem m os).mpr ⟨s, hs, hm⟩)))

theorem MdOk_withOneOf (os : List JSONSchema) (h : ∀ s ∈ os, MdOkFrag s) :
    MdOkFrag (JSONSchema.empty.withOneOf (some os)) := by
  constructor
  · simp only [JSONSchema.empty, JSONSchema.withOneOf, mdCoversDesc_mk]
    simp only [Bool.and_eq_true]
    refine ⟨⟨⟨by simp, trivial⟩, ?_⟩, trivial⟩
    exact (mdCoversDescList_iff os).mpr (fun s hs => (h s hs).1)
  · simp only [JSONSchema.empty, JSONSchema.withOneOf, mdsIn_mk]
    intro m hm
    simp only [List.nil_append, List.append_nil] at hm
    rcases (mdsInList_mem m os).mp hm with ⟨s, hs, hsm⟩
    exact (h s hs).2 m hsm

theorem MdOk_empty_withType (v : Option SchemaTypeTag) :
    MdOkFrag (JSONSchema.empty.withType v) :=
  MdOk_assemble _ rfl rfl rfl (fun _ hm => Option.noConfusion hm)
    (fun kv hkv => absurd hkv (List.not_mem_nil kv))

theorem MdOk_empty_withEnum (v : Option (List (Option String))) :
    MdOkFrag (JSONSchema.empty.withEnum v) :=
  MdOk_assemble _ rfl rfl rfl (fun _ hm => Option.noConfusion hm)
    (fun kv hkv => absurd hkv (List.not_mem_nil kv))

theorem MdOk_empty_withRef (v : Option String) :
    MdOkFrag (JSONSchema.empty.withRef v) :=
  MdOk_assemble _ rfl rfl rfl (fun _ hm => Option.noConfusion hm)
    (fun kv hkv => absurd hkv (List.not_mem_nil kv))

theorem MdOk_nullSchema : MdOkFrag nullSchema := MdOk_empty_withType _

theorem MdOk_withType_pres (x : JSONSchema) (v : Option SchemaTypeTag) (hx : MdOkFrag x) :
    MdOkFrag (x.withType v) := by
  obtain ⟨t, e, d, it, r, o, p, q, ds, md⟩ := x
  obtain ⟨h1, h2⟩ := hx
  constructor
  · simp only [JSONSchema.withType, mdCoversDesc_mk]
    rw [mdCoversDesc_mk] at h1
    exact h1
  · simp only [JSONSchema.withType, mdsIn_mk]
    rw [mdsIn_mk] at h2
    exact h2

theorem MdOk_withRequired_pres (x : JSONSchema) (v : Option (List String)) (hx : MdOkFrag x) :
    MdOkFrag (x.withRequired v) := by
  obtain ⟨t, e, d, it, r, o, p, q, ds, md⟩ := x
  obtain ⟨h1, h2⟩ := hx
  constructor
  · simp only [JSONSchema.withRequired, mdCoversDesc_mk]
    rw [mdCoversDesc_mk] at h1
    exact h1
  · simp only [JSONSchema.withRequired, mdsIn_mk]
    rw [mdsIn_mk] at h2
    exact h2

theorem MdOk_withItems_pres (x i : JSONSchema) (hx : MdOkFrag x) (hi : MdOkFrag i) :
    MdOkFrag (x.withItems (some i)) := by
  obtain ⟨t, e, d, it, r, o, p, q, ds, md⟩ := x
  obtain ⟨h1, h2⟩ := hx
  rw [mdCoversDesc_mk] at h1
  rw [mdsIn_mk] at h2
  simp only [Bool.and_eq_true] at h1
  constructor
  · simp only [JSONSchema.withItems, mdCoversDesc_mk, Bool.and_eq_true]
    exact ⟨⟨⟨h1.1.1.1, hi.1⟩, h1.1.2⟩, h1.2⟩
  · simp only [JSONSchema.withItems, mdsIn_mk]
    intro m hm
    rcases List.mem_append.mp hm with hm1 | hm1
    · rcases List.mem_append.mp hm1 with hm2 | hm2
      · rcases List.mem_append.mp hm2 with hm3 | hm3
        · exact h2 m (by simp [hm3])
        · exact hi.2 m hm3
      · exact h2 m (by simp [hm2])
    · exact h2 m (by simp [hm1])

theorem MdOk_withOneOf_pres (x : JSONSchema) (os : List JSONSchema) (hx : MdOkFrag x)
    (hos : ∀ s ∈ os, MdOkFrag s) : MdOkFrag (x.withOneOf (some os)) := by
  obtain ⟨t, e, d, it, r, o, p, q, ds, md⟩ := x
  obtain ⟨h1, h2⟩ := hx
  rw [mdCoversDesc_mk] at h1
  rw [mdsIn_mk] at h2
  simp only [Bool.and_eq_true] at h1
  constructor
  · simp only [JSONSchema.withOneOf, mdCoversDesc_mk, Bool.and_eq_true]
    exact ⟨⟨⟨h1.1.1.1, h1.1.1.2⟩,
      (mdCoversDescList_iff os).mpr fun s hs => (hos s hs).1⟩, h1.2⟩
  · simp only [JSONSchema.withOneOf, mdsIn_mk]
    intro m hm
    rcases List.mem_append.mp hm with hm1 | hm1
    · rcases List.mem_append.mp hm1 with hm2 | hm2
      · exact h2 m (by
          simp only [List.mem_append]
          exact Or.inl (Or.inl (List.mem_append.mp hm2)))
      · rcases (mdsInList_mem m os).mp hm2 with ⟨s, hs, hsm⟩
        exact (hos s hs).2 m hsm
    · exact h2 m (by simp [hm1])

theorem MdOk_withProperties_pres (x : JSONSchema) (props : List (String × JSONSchema))
    (hx : MdOkFrag x) (hprops : MdOkPairs props) : MdOkFrag (x.withProperties (some props)) := by
  obtain ⟨t, e, d, it, r, o, p, q, ds, md⟩ := x
  obtain ⟨h1, h2⟩ := hx
  rw [mdCoversDesc_mk] at h1
  rw [mdsIn_mk] at h2
  simp only [Bool.and_eq_true] at h1
  constructor
  · simp only [JSONSchema.withProperties, mdCoversDesc_mk, Bool.and_eq_true]
    exact ⟨⟨⟨h1.1.1.1, h1.1.1.2⟩, h1.1.2⟩,
      (mdCoversDescPairs_iff props).mpr fun kv hkv => (hprops kv hkv).1⟩
  · simp only [JSONSchema.withProperties, mdsIn_mk]
    intro m hm
    rcases List.mem_append.mp hm with hm1 | hm1
    · exact h2 m (by
        simp only [List.mem_append] at hm1 ⊢
        exact Or.inl hm1)
    · rcases (mdsInPairs_mem m props).mp hm1 with ⟨kv, hkv, hkvm⟩
      exact (hprops kv hkv).2 m hkvm

theorem MdOk_props_extract (x : JSONSchema) (hx : MdOkFrag x) :
    MdOkPairs (x.properties.getD []) := by
  obtain ⟨t, e, d, it, r, o, p, q, ds, md⟩ := x
  obtain ⟨h1, h2⟩ := hx
  rw [mdCoversDesc_mk] at h1
  rw [mdsIn_mk] at h2
  simp only [Bool.and_eq_true] at h1
  simp only [JSONSchema.properties_mk]
  cases p with
  | none => exact fun kv hkv => absurd hkv (List.not_mem_nil kv)
  | some props =>
    intro kv hkv
    simp only [Option.getD_some] at hkv
    constructor
    · exact (mdCoversDescPairs_iff props).mp h1.2 kv hkv
    · intro m hm
      exact h2 m (by
        simp only [List.mem_append]
        exact Or.inr ((mdsInPairs_mem m props).mpr ⟨kv, hkv, hm⟩))

theorem MdOk_broadenOneOfOrWrap (x : JSONSchema) (hx : MdOkFrag x) :
    MdOkFrag (broadenOneOfOrWrap x) := by
  unfold broadenOneOfOrWrap
  cases hoo : x.oneOf with
  | some alts =>
    exact MdOk_withOneOf_pres x _ hx (by
      intro s hs
      rcases List.mem_append.mp hs with h1 | h1
      · exact MdOk_oneOf_extract x alts hx hoo s h1
      · rw [List.mem_singleton.mp h1]
        exact MdOk_nullSchema)
  | none =>
    exact MdOk_withOneOf _ (by
      intro s hs
      rcases List.mem_cons.mp hs with h1 | h1
      · rw [h1]
        exact hx
      · rw [List.mem_singleton.mp h1]
        exact MdOk_nullSchema)

theorem MdOk_broadenWithNull (x : JSONSchema) (hx : MdOkFrag x) :
    MdOkFrag (broadenWithNull x) := by
  obtain ⟨ty, en, de, it, re, oo, pr, rq, ds, md⟩ := x
  cases ty with
  | some tag =>
    cases tag with
    | multi tags =>
      simp only [broadenWithNull, JSONSchema.type_mk]
      exact MdOk_withType_pres _ _ hx
    | single tg =>
      simp only [broadenWithNull, JSONSchema.type_mk]
      split
      · exact MdOk_withType_pres _ _ hx
      · exact MdOk_broadenOneOfOrWrap _ hx
  | none =>
    simp only [broadenWithNull, JSONSchema.type_mk]
    exact MdOk_broadenOneOfOrWrap _ hx

theorem MdOk_scalarCoreFragment (options : JSONSchemaOptions) (name : String) (nn : Bool)
    (hcs : options.customScalarSchemas = []) :
    MdOkFrag (scalarCoreFragment options name nn) := by
  unfold scalarCoreFragment
  cases hl : lookupKV scalarTypesMap name with
  | some tag =>
    show MdOkFrag (if nn then JSONSchema.empty.withType (some (.single tag))
      else JSONSchema.empty.withType (some (.multi [tag, "null"])))
    split <;> exact MdOk_empty_withType _
  | none =>
    rw [hcs]
    show MdOkFrag (if !nn then broadenWithNull (JSONSchema.empty.withType
        (some (.multi ["string", "number", "boolean", "integer"])))
      else JSONSchema.empty.withType
        (some (.multi ["string", "number", "boolean", "integer"])))
    split
    · exact MdOk_broadenWithNull _ (MdOk_empty_withType _)
    · exact MdOk_empty_withType _

theorem MdOk_listFragment (nn : Bool) (d : JSONSchema) (hd : MdOkFrag d) :
    MdOkFrag (listFragment nn d) := by
  have hbase : MdOkFrag (if nn then JSONSchema.empty.withType (some (.single "array"))
      else JSONSchema.empty.withType (some (.multi ["array", "null"]))) := by
    split <;> exact MdOk_empty_withType _
  simp only [listFragment]
  split
  · exact MdOk_withItems_pres _ _ hbase (MdOk_empty_withRef _)
  · split
    next hoo =>
      rcases Option.isSome_iff_exists.mp hoo with ⟨os, hos⟩
      rw [hos]
      exact MdOk_withItems_pres _ _ hbase (MdOk_withOneOf os (MdOk_oneOf_extract d os hd hos))
    next hoo => exact MdOk_withItems_pres _ _ hbase hd

theorem MdOk_inputObjectFragment (name : String) (nn : Bool) :
    MdOkFrag (inputObjectFragment name nn) := by
  unfold inputObjectFragment
  split
  · exact MdOk_empty_withRef _
  · exact MdOk_withOneOf _ (by
      intro s hs
      rcases List.mem_cons.mp hs with h1 | h1
      · rw [h1]
        exact MdOk_empty_withRef _
      · rw [List.mem_singleton.mp h1]
        exact MdOk_nullSchema)

theorem MdOk_initialFieldDef (env : GQLEnv) (options : JSONSchemaOptions) (name : String)
    (humd : options.useMarkdownDescription = true) :
    MdOkFrag (initialFieldDef env options name) := by
  have hbase : MdOkFrag (((JSONSchema.empty.withType (some (.single "object"))).withProperties
      (some [])).withRequired (some [])) := by
    constructor
    · decide
    · intro m hm
      rw [show mdsIn (((JSONSchema.empty.withType (some (.single "object"))).withProperties
        (some [])).withRequired (some [])) = [] from rfl] at hm
      exact absurd hm (List.not_mem_nil m)
  simp only [initialFieldDef, humd]
  split
  · exact mdOk_setters _ _ _ hbase (Fenced_append_left _ _ (Fenced_renderMd _))
  · exact mdOk_setters _ _ _ hbase (Fenced_renderMd _)

theorem descriptionBackfill_md (hp sc : Bool) (od : Option String) (r rm : String)
    (x : JSONSchema) (hrm : ContainsFencedBlock rm) :
    ∃ m, (descriptionBackfill hp sc od r rm true x).markdownDescription = some m ∧
      ContainsFencedBlock m := by
  obtain ⟨t, e, d, it, r0, o, p, q, ds, md⟩ := x
  unfold descriptionBackfill
  split
  · exact ⟨_, rfl, Fenced_append_left _ _ hrm⟩
  · split
    · exact ⟨_, rfl, Fenced_append_left _ _ hrm⟩
    · exact ⟨_, rfl, hrm⟩

theorem getJSONSchemaFromField_md (field : GQLField) :
    ∃ m, (getJSONSchemaFromField field true).markdownDescription = some m ∧
      ContainsFencedBlock m := by
  have hf : ContainsFencedBlock ("```graphql\n" ++ field.name ++ "\n```") :=
    ⟨"", field.name, by rw [String.append_empty_left]⟩
  exact descriptionBackfill_md _ _ _ _ _ _ hf

theorem MdOk_spreadMerge (a b : JSONSchema) (ha : MdOkFrag a)
    (hit : b.items = none) (hoo : b.oneOf = none) (hpr : b.properties = none)
    (hmd : ∃ m, b.markdownDescription = some m ∧ ContainsFencedBlock m) :
    MdOkFrag (spreadMerge a b) := by
  obtain ⟨ta, ea, da, ia, ra, oa, pa, qa, dsa, mda⟩ := a
  obtain ⟨tb, eb, db, ib, rb, ob, pb, qb, dsb, mdb⟩ := b
  obtain ⟨h1, h2⟩ := ha
  rw [mdCoversDesc_mk] at h1
  rw [mdsIn_mk] at h2
  simp only [Bool.and_eq_true] at h1
  simp only [JSONSchema.items_mk, JSONSchema.oneOf_mk, JSONSchema.properties_mk,
    JSONSchema.markdownDescription_mk] at hit hoo hpr hmd
  subst hit hoo hpr
  obtain ⟨m0, hm0, hm0f⟩ := hmd
  subst hm0
  simp only [spreadMerge, JSONSchema.type_mk, JSONSchema.enum_mk, JSONSchema.default_mk,
    JSONSchema.items_mk, JSONSchema.ref_mk, JSONSchema.oneOf_mk, JSONSchema.properties_mk,
    JSONSchema.required_mk, JSONSchema.description_mk, JSONSchema.markdownDescription_mk,
    Option.or_some, Option.none_or]
  constructor
  · rw [mdCoversDesc_mk]
    simp only [Bool.and_eq_true]
    exact ⟨⟨⟨by simp, h1.1.1.2⟩, h1.1.2⟩, h1.2⟩
  · rw [mdsIn_mk]
    intro m hm
    rcases List.mem_append.mp hm with hm1 | hm1
    · rcases List.mem_append.mp hm1 with hm2 | hm2
      · rcases List.mem_append.mp hm2 with hm3 | hm3
        · rw [List.mem_singleton.mp hm3]
          exact hm0f
        · exact h2 m (by simp [hm3])
      · exact h2 m (by simp [hm2])
    · exact h2 m (by simp [hm1])

theorem MdOk_fieldProp (field : GQLField) (tres : DefinitionResult)
    (hd : MdOkFrag tres.definition) : MdOkFrag (fieldProp true field tres) := by
  have hplain := getJSONSchemaFromField_plain field true
  have hmd := getJSONSchemaFromField_md field
  have hsp : MdOkFrag (spreadMerge tres.definition (getJSONSchemaFromField field true)) :=
    MdOk_spreadMerge _ _ hd hplain.1 hplain.2.2.1 hplain.2.2.2 hmd
  unfold fieldProp
  show MdOkFrag (if true = true then _ else _)
  rw [if_pos rfl]
  exact mdOk_setters _ _ _ hsp (by
    split
    · exact Fenced_append_left _ _ (Fenced_renderMd _)
    · exact Fenced_renderMd _)

theorem MdOk_fieldStepFieldDef (field : GQLField) (tres : DefinitionResult) (fd : JSONSchema)
    (hfd : MdOkFrag fd) (hprop : MdOkFrag (fieldProp true field tres)) :
    MdOkFrag (fieldStepFieldDef true field tres fd) := by
  have hins : MdOkPairs (insertKV (fd.properties.getD []) field.name
      (fieldProp true field tres)) := by
    intro kv hkv
    rcases insertKV_mem kv field.name (fieldProp true field tres) _ hkv with hold | hnew
    · exact MdOk_props_extract fd hfd kv hold
    · rw [hnew]
      exact hprop
  unfold fieldStepFieldDef
  split
  · exact MdOk_withRequired_pres _ _ (MdOk_withProperties_pres fd _ hfd hins)
  · exact MdOk_withProperties_pres fd _ hfd hins

theorem MdOk_typeBackfill (env : GQLEnv) (t : GQLType) (x : JSONSchema) (hx : MdOkFrag x) :
    MdOkFrag (typeBackfill env t true x) := by
  unfold typeBackfill
  exact descriptionBackfill_mdOk _ _ _ _ _ _ hx (Fenced_renderMd t)

theorem MdOk_backfillIfNullable (env : GQLEnv) (t : GQLType) (options : JSONSchemaOptions)
    (nn : Bool) (x : JSONSchema) (humd : options.useMarkdownDescription = true)
    (hx : MdOkFrag x) : MdOkFrag (backfillIfNullable env t options nn x) := by
  unfold backfillIfNullable
  split
  · rw [humd]
    exact MdOk_typeBackfill env t x hx
  · exact hx

theorem processFields_mdInv
    (go : GQLType → Bool → List String → Option (DefinitionResult × List String))
    (hgo_md : ∀ ty nn st res st', go ty nn st = some (res, st') →
      MdOkFrag res.definition ∧ ∀ kv ∈ res.definitions, MdOkFrag kv.2) :
    ∀ (fields : List GQLField) (fd : JSONSchema) (defs : List (String × JSONSchema))
      (marked : List String) (out : JSONSchema × List (String × JSONSchema) × List String),
      processFields go true fields (fd, defs, marked) = some out →
      MdOkFrag fd → (∀ kv ∈ defs, MdOkFrag kv.2) →
      MdOkFrag out.1 ∧ ∀ kv ∈ out.2.1, MdOkFrag kv.2 := by
  intro fields
  induction fields with
  | nil =>
    intro fd defs marked out h hfd hdefs
    injection h with h'
    rw [← h']
    exact ⟨hfd, hdefs⟩
  | cons f rest ih =>
    intro fd defs marked out h hfd hdefs
    rw [processFields_cons] at h
    cases hres : go f.type false marked with
    | none => rw [hres] at h; exact Option.noConfusion h
    | some p =>
      obtain ⟨tres, marked'⟩ := p
      rw [hres] at h
      have hmd := hgo_md _ _ _ _ _ hres
      have hfd' : MdOkFrag (fieldStepFieldDef true f tres fd) :=
        MdOk_fieldStepFieldDef f tres fd hfd (MdOk_fieldProp f tres hmd.1)
      have hdefs' : ∀ kv ∈ mergeDefs defs tres.definitions, MdOkFrag kv.2 := by
        intro kv hkv
        rcases mergeDefs_mem kv tres.definitions defs hkv with hold | hnew
        · exact hdefs kv hold
        · exact hmd.2 kv hnew
      exact ih _ _ _ out h hfd' hdefs'

theorem getJSONSchemaFromGraphQLType_mdInv (env : GQLEnv) (options : JSONSchemaOptions)
    (humd : options.useMarkdownDescription = true)
    (hcs : options.customScalarSchemas = []) :
    ∀ (fuel : Nat) (t : GQLType) (nn : Bool) (marked : List String) (res : DefinitionResult)
      (marked' : List String),
      getJSONSchemaFromGraphQLType env fuel t options nn marked = some (res, marked') →
      MdOkFrag res.definition ∧ ∀ kv ∈ res.definitions, MdOkFrag kv.2 := by
  intro fuel
  induction fuel with
  | zero => intro t nn marked res marked' h; exact Option.noConfusion h
  | succ fuel ih =>
    intro t nn marked res marked' h
    cases t with
    | scalar name d =>
      rw [goFuel_succ_scalar] at h
      injection h with h'
      injection h' with h1 h2
      rw [← h1]
      constructor
      · show MdOkFrag (backfillIfNullable env (.scalar name d) options nn
          (scalarCoreFragment options name nn))
        exact MdOk_backfillIfNullable _ _ _ _ _ humd
          (MdOk_scalarCoreFragment options name nn hcs)
      · exact fun kv hkv => absurd hkv (List.not_mem_nil kv)
    | enum name values d =>
      rw [goFuel_succ_enum] at h
      injection h with h'
      injection h' with h1 h2
      rw [← h1]
      constructor
      · show MdOkFrag (backfillIfNullable env (.enum name values d) options nn
          (enumCoreFragment values nn))
        exact MdOk_backfillIfNullable _ _ _ _ _ humd (MdOk_empty_withEnum _)
      · exact fun kv hkv => absurd hkv (List.not_mem_nil kv)
    | list ofType =>
      rw [goFuel_succ_list] at h
      cases hin : getJSONSchemaFromGraphQLType env fuel ofType options false marked with
      | none => rw [hin] at h; exact Option.noConfusion h
      | some p =>
        obtain ⟨ir, m1⟩ := p
        rw [hin] at h
        simp only [Option.map_some'] at h
        injection h with h'
        injection h' with h1 h2
        have hih := ih ofType false marked ir m1 hin
        rw [← h1]
        constructor
        · show MdOkFrag (backfillIfNullable env (.list ofType) options nn
            (listFragment nn ir.definition))
          exact MdOk_backfillIfNullable _ _ _ _ _ humd
            (MdOk_listFragment nn ir.definition hih.1)
        · intro kv hkv
          rcases mergeDefs_mem kv ir.definitions [] hkv with hnil | hmem
          · exact absurd hnil (List.not_mem_nil kv)
          · exact hih.2 kv hmem
    | nonNull ofType =>
      rw [goFuel_succ_nonNull] at h
      cases hin : getJSONSchemaFromGraphQLType env fuel ofType options true marked with
      | none => rw [hin] at h; exact Option.noConfusion h
      | some p =>
        obtain ⟨ir, m1⟩ := p
        rw [hin] at h
        simp only [Option.map_some'] at h
        injection h with h'
        injection h' with h1 h2
        have hih := ih ofType true marked ir m1 hin
        rw [← h1]
        constructor
        · show MdOkFrag (backfillIfNullable env (.nonNull ofType) options nn ir.definition)
          exact MdOk_backfillIfNullable _ _ _ _ _ humd hih.1
        · intro kv hkv
          rcases mergeDefs_mem kv ir.definitions [] hkv with hnil | hmem
          · exact absurd hnil (List.not_mem_nil kv)
          · exact hih.2 kv hmem
    | inputObject name =>
      cases hc : marked.contains name with
      | true =>
        rw [goFuel_succ_inputObject_marked env options fuel name nn marked hc] at h
        injection h with h'
        injection h' with h1 h2
        rw [← h1]
        constructor
        · show MdOkFrag (backfillIfNullable env (.inputObject name) options nn
            (inputObjectFragment name nn))
          exact MdOk_backfillIfNullable _ _ _ _ _ humd (MdOk_inputObjectFragment name nn)
        · exact fun kv hkv => absurd hkv (List.not_mem_nil kv)
      | false =>
        rw [goFuel_succ_inputObject_fresh env options fuel name nn marked hc, humd] at h
        cases hpf : processFields
            (fun ty n st => getJSONSchemaFromGraphQLType env fuel ty options n st)
            true (objFields env name)
            (initialFieldDef env options name, [], name :: marked) with
        | none => rw [hpf] at h; exact Option.noConfusion h
        | some out =>
          obtain ⟨fd2, defs2, m2⟩ := out
          rw [hpf] at h
          simp only [Option.map_some'] at h
          injection h with h'
          injection h' with h1 h2
          have hfold := processFields_mdInv
            (fun ty n st => getJSONSchemaFromGraphQLType env fuel ty options n st)
            (fun ty n st r st' hh => ih ty n st r st' hh)
            (objFields env name) (initialFieldDef env options name) [] (name :: marked)
            (fd2, defs2, m2) hpf
            (MdOk_initialFieldDef env options name humd)
            (fun kv hkv => absurd hkv (List.not_mem_nil kv))
          rw [← h1]
          constructor
          · show MdOkFrag (backfillIfNullable env (.inputObject name) options nn
              (inputObjectFragment name nn))
            exact MdOk_backfillIfNullable _ _ _ _ _ humd (MdOk_inputObjectFragment name nn)
          · intro kv hkv
            rcases insertKV_mem kv name fd2 defs2 hkv with hold | hnew
            · exact hfold.2 kv hold
            · rw [hnew]
              exact hfold.1

theorem buildStep_mdInv (env : GQLEnv) (options : JSONSchemaOptions)
    (humd : options.useMarkdownDescription = true)
    (hcs : options.customScalarSchemas = [])
    (doc : JSONSchemaDoc) (marked : List String) (entry : String × GQLType)
    (doc' : JSONSchemaDoc) (marked' : List String)
    (h : buildStep env options (some (doc, marked)) entry = some (doc', marked'))
    (hprops : MdOkPairs doc.properties)
    (hdefs : ∀ kv ∈ doc.definitions.getD [], MdOkFrag kv.2) :
    MdOkPairs doc'.properties ∧ ∀ kv ∈ doc'.definitions.getD [], MdOkFrag kv.2 := by
  simp only [buildStep, bind, Option.bind] at h
  cases hgo : getJSONSchemaFromGraphQLType env (initialFuel env marked entry.2) entry.2
      options false marked with
  | none => rw [hgo] at h; exact Option.noConfusion h
  | some out =>
    rw [hgo] at h
    obtain ⟨res, m1⟩ := out
    simp only [pure] at h
    injection h with h'
    injection h' with h1 h2
    have hmd := getJSONSchemaFromGraphQLType_mdInv env options humd hcs _ _ _ _ _ _ hgo
    have hp : doc'.properties = insertKV doc.properties entry.1 res.definition := by
      rw [← h1]
      cases res.required <;> rfl
    have hd : doc'.definitions.getD [] =
        mergeDefs (doc.definitions.getD []) res.definitions := by
      rw [← h1]
      cases res.required <;> rfl
    constructor
    · rw [hp]
      intro kv hkv
      rcases insertKV_mem kv entry.1 res.definition _ hkv with hold | hnew
      · exact hprops kv hold
      · rw [hnew]
        exact hmd.1
    · rw [hd]
      intro kv hkv
      rcases mergeDefs_mem kv res.definitions _ hkv with hold | hnew
      · exact hdefs kv hold
      · exact hmd.2 kv hnew

theorem foldl_buildStep_mdInv (env : GQLEnv) (options : JSONSchemaOptions)
    (humd : options.useMarkdownDescription = true)
    (hcs : options.customScalarSchemas = []) :
    ∀ (varMap : List (String × GQLType)) (doc : JSONSchemaDoc) (marked : List String)
      (out : JSONSchemaDoc × List String),
      MdOkPairs doc.properties →
      (∀ kv ∈ doc.definitions.getD [], MdOkFrag kv.2) →
      varMap.foldl (buildStep env options) (some (doc, marked)) = some out →
      MdOkPairs out.1.properties ∧ ∀ kv ∈ out.1.definitions.getD [], MdOkFrag kv.2 := by
  intro varMap
  induction varMap with
  | nil =>
    intro doc marked out hprops hdefs h
    injection h with h'
    rw [← h']
    exact ⟨hprops, hdefs⟩
  | cons e rest ih =>
    intro doc marked out hprops hdefs h
    simp only [List.foldl_cons] at h
    cases hstep : buildStep env options (some (doc, marked)) e with
    | none => rw [hstep, foldl_buildStep_none] at h; exact Option.noConfusion h
    | some acc1 =>
      rw [hstep] at h
      obtain ⟨doc1, m1⟩ := acc1
      have hb := buildStep_mdInv env options humd hcs doc marked e doc1 m1 hstep hprops hdefs
      exact ih doc1 m1 out hb.1 hb.2 h

/-- C8 (amended): when useMarkdownDescription is true and no custom scalar
schemas are registered, every fragment anywhere in the returned document
that carries a description member also carries a markdownDescription
member, and every markdownDescription string in the document embeds a
fenced graphql code block holding a rendered type signature. -/
theorem c8_markdown_descriptions (env : GQLEnv) (options : JSONSchemaOptions)
    (humd : options.useMarkdownDescription = true)
    (hcs : options.customScalarSchemas = [])
    (variableToType : List (String × GQLType)) (doc : JSONSchemaDoc)
    (h : getVariablesJSONSchema env variableToType options = some doc) :
    docMdCoversDesc doc = true ∧ ∀ m ∈ docMds doc, ContainsFencedBlock m := by
  unfold getVariablesJSONSchema at h
  cases hb : buildVariablesJSONSchema env variableToType options with
  | none => rw [hb] at h; exact Option.noConfusion h
  | some out =>
    rw [hb] at h
    obtain ⟨docB, marked⟩ := out
    simp only [Option.map_some'] at h
    injection h with hdoc
    subst hdoc
    unfold buildVariablesJSONSchema at hb
    have hmd := foldl_buildStep_mdInv env options humd hcs variableToType
      initialJSONSchemaDoc [] (docB, marked)
      (fun kv hkv => absurd hkv (List.not_mem_nil kv))
      (fun kv hkv => absurd hkv (List.not_mem_nil kv)) hb
    constructor
    · unfold docMdCoversDesc
      rw [Bool.and_eq_true]
      exact ⟨(mdCoversDescPairs_iff _).mpr (fun kv hkv => (hmd.1 kv hkv).1),
        (mdCoversDescPairs_iff _).mpr (fun kv hkv => (hmd.2 kv hkv).1)⟩
    · intro m hm
      unfold docMds at hm
      rcases List.mem_append.mp hm with h1 | h1
      · rcases (mdsInPairs_mem m _).mp h1 with ⟨kv, hkv, hkvm⟩
        exact (hmd.1 kv hkv).2 m hkvm
      · rcases (mdsInPairs_mem m _).mp h1 with ⟨kv, hkv, hkvm⟩
        exact (hmd.2 kv hkv).2 m hkvm

/-- C8 witness: the amended theorem applied to the one-variable map sending
id to NonNull(ID) in markdown mode with no custom scalar schemas; the
computed document carries the fenced markdown description alongside the
plain description. -/
theorem c8_markdown_descriptions_witness :
    docMdCoversDesc { schemaUri := "https://json-schema.org/draft/2020-12/schema"
                      type := "object"
                      properties := [("id", .mk (some (.single "string")) none none none none
                        none none none (some "ID!") (some "```graphql\nID!\n```"))]
                      required := ["id"]
                      definitions := some [] } = true ∧
    ∀ m ∈ docMds { schemaUri := "https://json-schema.org/draft/2020-12/schema"
                   type := "object"
                   properties := [("id", .mk (some (.single "string")) none none none none
                     none none none (some "ID!") (some "```graphql\nID!\n```"))]
                   required := ["id"]
                   definitions := some [] }, ContainsFencedBlock m :=
  c8_markdown_descriptions [] { useMarkdownDescription := true, customScalarSchemas := [] }
    rfl rfl [("id", .nonNull (.scalar "ID" none))] _ rfl

/-- C8 counterexample: with useMarkdownDescription true but a registered
custom scalar override that carries only a description, the override is
spliced verbatim into a oneOf alternative of the variable's fragment, so
the returned document contains a fragment with a description and no
markdownDescription, refuting the claim as stated, which quantifies over
every options value. -/
theorem c8_counterexample :
    ¬ (∀ doc, getVariablesJSONSchema [] [("x", .scalar "S" none)]
          { useMarkdownDescription := true
            customScalarSchemas := [("S", JSONSchema.empty.withDescription (some "d"))] } =
        some doc →
        docMdCoversDesc doc = true ∧ ∀ m ∈ docMds doc, ContainsFencedBlock m) := by
  intro h
  have h1 := (h _ rfl).1
  exact absurd h1 (by decide)
